import Mathlib

/-!
Verification of the caching and search subsystem of the neo-bloggy
publishing backend (`src/app.py`), as a shallow embedding in Lean 4.

Conventions of the embedding:
* Python's module-global `cache_storage` dict is modelled as an explicit
  association list passed in and out of every operation; Python dict keys
  are unique, and all operations below preserve key uniqueness.
* `time.time()` values are modelled as integers (`Int`); only the ordering
  and subtraction of timestamps matter to the code under verification.
* Python exceptions raised by a wrapped computation are modelled with
  `Except`: the computation is a function `Unit → Except ε α`.
* Texts are modelled as `List Char` / `String` restricted to one-byte
  (ASCII) characters where Python's `re` module and `repr` are involved;
  theorems that need this restriction state it as a hypothesis.
-/

namespace NeoBloggy

/-! ## TTL cache (`src/app.py` lines 174-223)

`cache_storage` is a dict mapping a string key to a pair
`(value, timestamp)`.  We model it as an association list with unique
keys; `cacheGet` returns the first (hence only) binding, `cacheSet`
replaces a binding in place exactly as a Python dict assignment does, and
`cacheDel` removes it (Python `del`). -/

/-- The `cache_storage` dict: key → (value, timestamp). -/
abbrev Cache (α : Type) : Type := List (String × α × Int)

/-- Dict lookup `cache_storage[key]` (as an `Option`). -/
def cacheGet {α : Type} : Cache α → String → Option (α × Int)
  | [], _ => none
  | (k, vt) :: rest, key => if k = key then some vt else cacheGet rest key

/-- Dict assignment `cache_storage[key] = (value, timestamp)`:
replaces the binding in place if the key is present, appends otherwise. -/
def cacheSet {α : Type} : Cache α → String → α × Int → Cache α
  | [], key, vt => [(key, vt)]
  | (k, vt0) :: rest, key, vt =>
      if k = key then (key, vt) :: rest else (k, vt0) :: cacheSet rest key vt

/-- Dict deletion `del cache_storage[key]` (removes the binding). -/
def cacheDel {α : Type} : Cache α → String → Cache α
  | [], _ => []
  | (k, vt0) :: rest, key =>
      if k = key then rest else (k, vt0) :: cacheDel rest key

/-- Result of one pass through the `cached_result` wrapper:
the value (or propagated exception), the cache afterwards, and how many
times the wrapped function was invoked (0 or 1). -/
structure CachedCallResult (ε α : Type) where
  result : Except ε α
  cache : Cache α
  calls : Nat

/-- The body of the `wrapper` closure produced by the `cached_result`
decorator (`src/app.py` lines 182-203), for one call.  `key` stands for
`get_cache_key(func.__name__, *args, **kwargs)` (key derivation is
modelled separately by `getCacheKey`), `f` for the wrapped function,
`now` for `time.time()`.  When `CACHE_ENABLED` is false the wrapped
function is called directly; otherwise a fresh cached entry is returned
as a hit, and an absent or expired entry leads to recomputation, with the
new value stored only if the computation does not raise. -/
def cachedResult {ε α : Type} (enabled : Bool) (timeout : Int) (key : String)
    (f : Unit → Except ε α) (cache : Cache α) (now : Int) :
    CachedCallResult ε α :=
  if !enabled then
    { result := f (), cache := cache, calls := 1 }
  else
    let recompute : CachedCallResult ε α :=
      match f () with
      | .ok v => { result := .ok v, cache := cacheSet cache key (v, now), calls := 1 }
      | .error e => { result := .error e, cache := cache, calls := 1 }
    match cacheGet cache key with
    | some (v, ts) =>
        if now - ts < timeout then { result := .ok v, cache := cache, calls := 0 }
        else recompute
    | none => recompute

/-- `clear_expired_cache` (`src/app.py` lines 206-218): returns
immediately when the cache is disabled, otherwise collects the keys of
expired entries and deletes each of them. -/
def clearExpiredCache {α : Type} (enabled : Bool) (timeout : Int)
    (cache : Cache α) (now : Int) : Cache α :=
  if !enabled then cache
  else
    let expiredKeys :=
      (cache.filter (fun e => now - e.2.2 ≥ timeout)).map (fun e => e.1)
    expiredKeys.foldl (fun c k => cacheDel c k) cache

/-- `clear_cache` (`src/app.py` lines 221-223): empties the store
unconditionally — the function itself does not consult `CACHE_ENABLED`
(every call site guards it with `if CACHE_ENABLED:` instead). -/
def clearCache {α : Type} (_cache : Cache α) : Cache α := []

/-- The per-key invalidation idiom used at every write call site
(e.g. `src/app.py` lines 1105-1108): guarded by `CACHE_ENABLED`, then
`if cache_key in cache_storage: del cache_storage[cache_key]`. -/
def invalidateKey {α : Type} (enabled : Bool) (cache : Cache α)
    (key : String) : Cache α :=
  if enabled then
    if (cacheGet cache key).isSome then cacheDel cache key else cache
  else cache

/-! ## Input sanitizer (`src/app.py` lines 1415-1470, `is_suspicious_input`)

Each regular expression of the Python source is compiled by hand into an
executable matcher over `List Char`.  `re.search` semantics (existence of
a match at any position) is modelled by trying a per-position matcher at
every suffix, threading the previous character for `\b` word-boundary
tests.  All checks are case-insensitive (`re.IGNORECASE`), modelled by
lowercasing each examined character against lowercase pattern literals;
`\w`, `\s` and `\b` follow Python's ASCII behaviour (the embedding covers
one-byte texts). -/

/-- Python `\s` on ASCII: space, tab, newline, carriage return,
vertical tab, form feed. -/
def isSpaceChar (c : Char) : Bool :=
  c = ' ' || c = '\t' || c = '\n' || c = '\r' || c = '\x0b' || c = '\x0c'

/-- ASCII decimal digit (`\d`). -/
def isDigitChar (c : Char) : Bool := 48 ≤ c.toNat && c.toNat ≤ 57

/-- `[A-Za-z]`. -/
def isAsciiLetter (c : Char) : Bool :=
  (65 ≤ c.toNat && c.toNat ≤ 90) || (97 ≤ c.toNat && c.toNat ≤ 122)

/-- Python `\w` on ASCII: letters, digits, underscore. -/
def isWordChar (c : Char) : Bool := isAsciiLetter c || isDigitChar c || c = '_'

/-- ASCII lowercasing, for `re.IGNORECASE`. -/
def asciiToLower (c : Char) : Char :=
  if 65 ≤ c.toNat && c.toNat ≤ 90 then Char.ofNat (c.toNat + 32) else c

/-- Match a lowercase literal at the head of the text, case-insensitively,
returning the rest of the text on success. -/
def litHere : List Char → List Char → Option (List Char)
  | [], l => some l
  | _ :: _, [] => none
  | p :: ps, c :: l => if asciiToLower c = p then litHere ps l else none

/-- Word-character status of the character before the current position
(`none` at the start of the text). -/
def isWordOpt : Option Char → Bool
  | none => false
  | some c => isWordChar c

/-- Word-character status of the character at the current position
(`false` at the end of the text). -/
def isWordHead : List Char → Bool
  | [] => false
  | c :: _ => isWordChar c

/-- `\b` at a position given the previous character and the rest. -/
def atBoundary (prev : Option Char) (l : List Char) : Bool :=
  isWordOpt prev != isWordHead l

/-- `\b` immediately after a literal that ends in a word character:
the next character is absent or not a word character. -/
def bAfterWord : List Char → Bool
  | [] => true
  | c :: _ => !isWordChar c

/-- `\s+` then a continuation, with backtracking: some non-empty run of
whitespace is consumed before the continuation succeeds. -/
def afterSpaces1 (k : List Char → Bool) : List Char → Bool
  | [] => false
  | c :: rest => isSpaceChar c && (k rest || afterSpaces1 k rest)

/-- `\s*` then a continuation. -/
def afterSpaces0 (k : List Char → Bool) (l : List Char) : Bool :=
  k l || afterSpaces1 k l

/-- `\w+` then a continuation, with backtracking. -/
def afterWord1 (k : List Char → Bool) : List Char → Bool
  | [] => false
  | c :: rest => isWordChar c && (k rest || afterWord1 k rest)

/-- `://` followed by one non-whitespace character (`[^\s]+` needs at
least one character; further characters are irrelevant to existence). -/
def colonSlashes : List Char → Bool
  | ':' :: '/' :: '/' :: c :: _ => !isSpaceChar c
  | _ => false

/-- `https?://[^\s]+` at a position. -/
def urlHttpAt (l : List Char) : Bool :=
  match litHere ['h', 't', 't', 'p'] l with
  | none => false
  | some rest =>
      colonSlashes rest ||
      (match rest with
       | c :: rest2 => asciiToLower c = 's' && colonSlashes rest2
       | [] => false)

/-- `www\.[^\s]+` at a position. -/
def urlWwwAt (l : List Char) : Bool :=
  match litHere ['w', 'w', 'w', '.'] l with
  | some (c :: _) => !isSpaceChar c
  | _ => false

/-- The TLD alternation of the third URL pattern. -/
def tldList : List (List Char) :=
  [['c', 'o', 'm'], ['o', 'r', 'g'], ['n', 'e', 't'], ['e', 'd', 'u'],
   ['g', 'o', 'v'], ['m', 'i', 'l'], ['i', 'n', 't'], ['c', 'o'],
   ['u', 'k'], ['d', 'e'], ['f', 'r'], ['j', 'p'], ['c', 'n'],
   ['a', 'u'], ['c', 'a'], ['r', 'u'], ['b', 'r'], ['i', 'n'],
   ['i', 't'], ['e', 's']]

/-- `[^\s]+\.(?:com|org|...)[^\s]*` at a position: its minimal instance
is one non-whitespace character, a dot, and a TLD literal (`[^\s]*`
matches the empty suffix), and the regex matches somewhere iff such a
minimal instance occurs at some position. -/
def urlTldAt : List Char → Bool
  | c :: '.' :: rest =>
      !isSpaceChar c && tldList.any (fun t => (litHere t rest).isSome)
  | _ => false

/-- The dangerous tag names of `<\s*(script|iframe|...)\b`. -/
def tagNames : List (List Char) :=
  [['s', 'c', 'r', 'i', 'p', 't'], ['i', 'f', 'r', 'a', 'm', 'e'],
   ['o', 'b', 'j', 'e', 'c', 't'], ['e', 'm', 'b', 'e', 'd'],
   ['l', 'i', 'n', 'k'], ['s', 't', 'y', 'l', 'e'],
   ['m', 'e', 't', 'a'], ['f', 'o', 'r', 'm']]

/-- One of the tag names followed by `\b`. -/
def tagNameHere (l : List Char) : Bool :=
  tagNames.any (fun t =>
    match litHere t l with
    | some rest => bAfterWord rest
    | none => false)

/-- `<\s*(script|iframe|object|embed|link|style|meta|form)\b` at a
position. -/
def tagOpenAt : List Char → Bool
  | '<' :: rest => afterSpaces0 tagNameHere rest
  | _ => false

/-- Literal word, `\s+`, literal word, `\b` — the shape of most SQL and
shell phrase alternatives. -/
def litSpacesLit (w1 w2 : List Char) (l : List Char) : Bool :=
  match litHere w1 l with
  | some rest =>
      afterSpaces1 (fun r =>
        match litHere w2 r with
        | some r2 => bAfterWord r2
        | none => false) rest
  | none => false

/-- `update\s+\w+\s+set\b` (after the leading `\b`). -/
def updateSetHere (l : List Char) : Bool :=
  match litHere ['u', 'p', 'd', 'a', 't', 'e'] l with
  | some rest =>
      afterSpaces1 (afterWord1 (afterSpaces1 (fun r =>
        match litHere ['s', 'e', 't'] r with
        | some r2 => bAfterWord r2
        | none => false))) rest
  | none => false

/-- The SQL-injection alternation, after its leading `\b`. -/
def sqlPhraseHere (l : List Char) : Bool :=
  litSpacesLit ['u', 'n', 'i', 'o', 'n'] ['s', 'e', 'l', 'e', 'c', 't'] l ||
  litSpacesLit ['i', 'n', 's', 'e', 'r', 't'] ['i', 'n', 't', 'o'] l ||
  updateSetHere l ||
  litSpacesLit ['d', 'e', 'l', 'e', 't', 'e'] ['f', 'r', 'o', 'm'] l ||
  litSpacesLit ['d', 'r', 'o', 'p'] ['t', 'a', 'b', 'l', 'e'] l ||
  litSpacesLit ['c', 'r', 'e', 'a', 't', 'e'] ['t', 'a', 'b', 'l', 'e'] l ||
  litSpacesLit ['a', 'l', 't', 'e', 'r'] ['t', 'a', 'b', 'l', 'e'] l

/-- `\b(union\s+select|...)\b` at a position: every alternative starts
with a letter, so the leading `\b` holds iff the previous character is
not a word character. -/
def sqlAt (prev : Option Char) (l : List Char) : Bool :=
  !isWordOpt prev && sqlPhraseHere l

/-- The dangerous script-function alternation. -/
def jsNames : List (List Char) :=
  [['e', 'v', 'a', 'l'],
   ['d', 'o', 'c', 'u', 'm', 'e', 'n', 't', '.', 'c', 'o', 'o', 'k', 'i', 'e'],
   ['w', 'i', 'n', 'd', 'o', 'w', '.', 'l', 'o', 'c', 'a', 't', 'i', 'o', 'n'],
   ['l', 'o', 'c', 'a', 't', 'i', 'o', 'n', '.', 'h', 'r', 'e', 'f']]

/-- `\s*\(`. -/
def openParenAfterSpaces : List Char → Bool :=
  afterSpaces0 (fun l =>
    match l with
    | '(' :: _ => true
    | _ => false)

/-- `\b(eval|document\.cookie|window\.location|location\.href)\s*\(` at
a position (each alternative starts with a letter). -/
def jsFuncAt (prev : Option Char) (l : List Char) : Bool :=
  !isWordOpt prev &&
    jsNames.any (fun t =>
      match litHere t l with
      | some rest => openParenAfterSpaces rest
      | none => false)

/-- `expression\s*\(` at a position. -/
def cssExprAt (l : List Char) : Bool :=
  match litHere ['e', 'x', 'p', 'r', 'e', 's', 's', 'i', 'o', 'n'] l with
  | some rest => openParenAfterSpaces rest
  | none => false

/-- `<\?php` at a position. -/
def phpLongAt : List Char → Bool
  | '<' :: '?' :: rest => (litHere ['p', 'h', 'p'] rest).isSome
  | _ => false

/-- `<\?` at a position. -/
def phpAt : List Char → Bool
  | '<' :: '?' :: _ => true
  | _ => false

/-- `\d{3,4}\b`: three digits, then either a word boundary, or a fourth
digit followed by a word boundary. -/
def digits34 : List Char → Bool
  | d1 :: d2 :: d3 :: rest =>
      isDigitChar d1 && isDigitChar d2 && isDigitChar d3 &&
        (bAfterWord rest ||
          (match rest with
           | d4 :: rest2 => isDigitChar d4 && bAfterWord rest2
           | [] => false))
  | _ => false

/-- `chmod\s+\d{3,4}` (after the leading `\b`), ending in `\b`. -/
def chmodHere (l : List Char) : Bool :=
  match litHere ['c', 'h', 'm', 'o', 'd'] l with
  | some rest => afterSpaces1 digits34 rest
  | none => false

/-- `\b(rm\s+-rf|chmod\s+\d{3,4}|wget\s+http|curl\s+http)\b` at a
position (each alternative starts with a letter). -/
def shellAt (prev : Option Char) (l : List Char) : Bool :=
  !isWordOpt prev &&
    (litSpacesLit ['r', 'm'] ['-', 'r', 'f'] l ||
     chmodHere l ||
     litSpacesLit ['w', 'g', 'e', 't'] ['h', 't', 't', 'p'] l ||
     litSpacesLit ['c', 'u', 'r', 'l'] ['h', 't', 't', 'p'] l)

/-- The character class `[\w\/\\.-]` of the file-path pattern. -/
def isPathClass (c : Char) : Bool :=
  isWordChar c || c = '/' || c = '\\' || c = '.' || c = '-'

/-- The tail `[\w\/\\.-]+(?:[\/\\][\w\/\\.-]+)*\b` of the file-path
pattern, given the last consumed character `c`.  Both groups consume
only characters of the class, so the regex tail accepts exactly the
texts with some non-empty class-character run ending at a word boundary;
the disjunction below enumerates the possible stopping points. -/
def pathTail : Char → List Char → Bool
  | c, [] => isWordChar c
  | c, d :: rest => (isWordChar c != isWordChar d) || (isPathClass d && pathTail d rest)

/-- At least one class character after the alternation, then the tail. -/
def pathAfterAlt : List Char → Bool
  | [] => false
  | d :: rest => isPathClass d && pathTail d rest

/-- Alternative `[A-Za-z]:[\/\\]` of the file-path pattern. -/
def driveAlt : List Char → Bool
  | a :: ':' :: s :: rest =>
      isAsciiLetter a && (s = '/' || s = '\\') && pathAfterAlt rest
  | _ => false

/-- Alternative `\/` of the file-path pattern (also `\.{0,2}\/` with
zero dots). -/
def slashAlt : List Char → Bool
  | '/' :: rest => pathAfterAlt rest
  | _ => false

/-- Alternative `\.{1,2}\/` of the file-path pattern. -/
def dotSlashAlt : List Char → Bool
  | '.' :: '/' :: rest => pathAfterAlt rest
  | '.' :: '.' :: '/' :: rest => pathAfterAlt rest
  | _ => false

/-- `\b(?:[A-Za-z]:[\/\\]|\/|\.{0,2}\/)[\w\/\\.-]+(?:[\/\\][\w\/\\.-]+)*\b`
at a position. -/
def pathAt (prev : Option Char) (l : List Char) : Bool :=
  atBoundary prev l && (driveAlt l || slashAlt l || dotSlashAlt l)

/-- `re.search`: try the per-position matcher at every position,
threading the previous character for `\b` tests.  (No pattern of the
sanitizer matches the empty suffix, so the end position is omitted.) -/
def matchAnywhere (f : Option Char → List Char → Bool) :
    Option Char → List Char → Bool
  | _, [] => false
  | prev, c :: rest => f prev (c :: rest) || matchAnywhere f (some c) rest

/-- The `url_patterns` loop of `is_suspicious_input`. -/
def urlMatch (l : List Char) : Bool :=
  matchAnywhere (fun _ s => urlHttpAt s) none l ||
  matchAnywhere (fun _ s => urlWwwAt s) none l ||
  matchAnywhere (fun _ s => urlTldAt s) none l

/-- The `code_patterns` loop of `is_suspicious_input`, in source
order. -/
def codeMatch (l : List Char) : Bool :=
  matchAnywhere (fun _ s => tagOpenAt s) none l ||
  matchAnywhere sqlAt none l ||
  matchAnywhere jsFuncAt none l ||
  matchAnywhere (fun _ s => cssExprAt s) none l ||
  matchAnywhere (fun _ s => phpLongAt s) none l ||
  matchAnywhere (fun _ s => phpAt s) none l ||
  matchAnywhere shellAt none l ||
  matchAnywhere pathAt none l

/-- The obfuscation-density check: texts longer than 20 characters with
more than 30% characters matching `[^\w\s]`.  The float comparison
`special_chars / len(text) > 0.3` is modelled by the exact rational
comparison `10 * special_chars > 3 * len`, which agrees with the
double-precision comparison for every realistic text length. -/
def densityCheck (l : List Char) : Bool :=
  l.length > 20 &&
    10 * (l.filter (fun c => !isWordChar c && !isSpaceChar c)).length >
      3 * l.length

/-- `is_suspicious_input` (`src/app.py` lines 1415-1470): URL patterns,
then code patterns, then the density check; any single match suffices. -/
def isSuspiciousInput (s : String) : Bool :=
  urlMatch s.data || codeMatch s.data || densityCheck s.data

/-- The previous-character accumulator of `matchAnywhere` after
consuming a list of characters. -/
def lastOpt (prev : Option Char) : List Char → Option Char
  | [] => prev
  | c :: rest => lastOpt (some c) rest


/-! ## Cache key derivation (`src/app.py` lines 177-179, `get_cache_key`)

`get_cache_key(*args, **kwargs)` returns
`str(args) + str(sorted(kwargs.items()))`.  The argument values the
application passes are strings and integers, so the model's value domain
`PyVal` has those two constructors.  `str` of a tuple/list renders each
element with Python `repr`; the model reproduces `repr` for integers
(decimal) and for one-byte strings (quote choice, backslash escapes,
`\xhh` for non-printables).  A verified parser inverts the rendering,
giving injectivity of the derived keys. -/

/-- A Python argument value: the application passes strings and ints. -/
inductive PyVal where
  | int (n : Int)
  | str (s : String)
  deriving DecidableEq

/-- The single-quote character. -/
def sq : Char := Char.ofNat 39

/-- The double-quote character. -/
def dq : Char := Char.ofNat 34

/-- The decimal digit character for `d < 10`. -/
def digitChar (d : Nat) : Char := Char.ofNat (48 + d)

/-- Decimal digits of a natural number, most significant first. -/
def natDigits (n : Nat) : List Char :=
  if _h : n < 10 then [digitChar n]
  else natDigits (n / 10) ++ [digitChar (n % 10)]
  termination_by n
  decreasing_by exact Nat.div_lt_self (by omega) (by omega)

/-- Python `repr` of an integer. -/
def intRepr : Int → List Char
  | .ofNat n => natDigits n
  | .negSucc m => '-' :: natDigits (m + 1)

/-- Lowercase hexadecimal digit character for `d < 16`. -/
def hexDigitChar (d : Nat) : Char :=
  if d < 10 then Char.ofNat (48 + d) else Char.ofNat (87 + d)

/-- Python `repr` escaping of one string character, given the chosen
quote: backslash and the active quote get a backslash escape, newline /
carriage return / tab their mnemonic escapes, other non-printables a
`\xhh` escape, and printable characters stand for themselves.  (The
embedding covers one-byte characters.) -/
def pyEscapeChar (quote : Char) (c : Char) : List Char :=
  if c = '\\' then ['\\', '\\']
  else if c = quote then ['\\', quote]
  else if c = '\n' then ['\\', 'n']
  else if c = '\r' then ['\\', 'r']
  else if c = '\t' then ['\\', 't']
  else if c.toNat < 32 || c.toNat ≥ 127 then
    ['\\', 'x', hexDigitChar (c.toNat / 16 % 16), hexDigitChar (c.toNat % 16)]
  else [c]

/-- `repr` escaping of a whole string body. -/
def escapeList (quote : Char) : List Char → List Char
  | [] => []
  | c :: rest => pyEscapeChar quote c ++ escapeList quote rest

/-- Python `repr` quote choice: single quotes, unless the string
contains a single quote and no double quote. -/
def chooseQuote (s : List Char) : Char :=
  if s.contains sq && !(s.contains dq) then dq else sq

/-- Python `repr` of a string. -/
def strRepr (s : List Char) : List Char :=
  let q := chooseQuote s
  q :: (escapeList q s ++ [q])

/-- Python `repr` of an argument value. -/
def pyRepr : PyVal → List Char
  | .int n => intRepr n
  | .str s => strRepr s.data

/-- Join rendered elements with `", "`, as Python does inside tuple and
list displays. -/
def joinCommaSpace : List (List Char) → List Char
  | [] => []
  | [x] => x
  | x :: xs => x ++ ',' :: ' ' :: joinCommaSpace xs

/-- Python `str` of a tuple of values (trailing comma for a
one-element tuple). -/
def tupleRepr (vs : List PyVal) : List Char :=
  match vs with
  | [v] => '(' :: (pyRepr v ++ [',', ')'])
  | _ => '(' :: (joinCommaSpace (vs.map pyRepr) ++ [')'])

/-- Python `str` of one `(name, value)` item of `kwargs.items()`. -/
def pairRepr (p : String × PyVal) : List Char :=
  '(' :: (strRepr p.1.data ++ ',' :: ' ' :: (pyRepr p.2 ++ [')']))

/-- Python `str` of the sorted items list. -/
def itemsRepr (ps : List (String × PyVal)) : List Char :=
  '[' :: (joinCommaSpace (ps.map pairRepr) ++ [']'])

/-- Insertion step of `sorted(kwargs.items())`.  Python compares the
`(name, value)` tuples lexicographically; the keys of a dict are
distinct, so only the name comparison is ever exercised. -/
def insertByName (p : String × PyVal) :
    List (String × PyVal) → List (String × PyVal)
  | [] => [p]
  | q :: rest => if q.1 < p.1 then q :: insertByName p rest else p :: q :: rest

/-- `sorted(kwargs.items())` by name. -/
def sortByName : List (String × PyVal) → List (String × PyVal)
  | [] => []
  | p :: rest => insertByName p (sortByName rest)

/-- The comparison `sorted` uses on items (on distinct names). -/
def nameLe (a b : String × PyVal) : Prop := a.1 ≤ b.1

instance : DecidableRel nameLe :=
  fun a b => inferInstanceAs (Decidable (a.1 ≤ b.1))

instance : IsTotal (String × PyVal) nameLe := ⟨fun a b => le_total a.1 b.1⟩

instance : IsTrans (String × PyVal) nameLe := ⟨fun _ _ _ h1 h2 => le_trans h1 h2⟩

/-- `get_cache_key(*args, **kwargs)`:
`str(args) + str(sorted(kwargs.items()))`. -/
def getCacheKey (args : List PyVal) (kwargs : List (String × PyVal)) :
    List Char :=
  tupleRepr args ++ itemsRepr (sortByName kwargs)

/-- One-byte restriction for a value (always true for integers). -/
def pyValAscii : PyVal → Bool
  | .int _ => true
  | .str s => s.data.all (fun c => c.toNat < 128)

/-- One-byte restriction for every value and keyword name of a call. -/
def keysAscii (args : List PyVal) (kwargs : List (String × PyVal)) : Bool :=
  args.all pyValAscii &&
    kwargs.all (fun p => p.1.data.all (fun c => c.toNat < 128) && pyValAscii p.2)

/-- Numeric value of a hexadecimal digit character. -/
def hexVal (c : Char) : Option Nat :=
  if 48 ≤ c.toNat && c.toNat ≤ 57 then some (c.toNat - 48)
  else if 97 ≤ c.toNat && c.toNat ≤ 102 then some (c.toNat - 87)
  else if 65 ≤ c.toNat && c.toNat ≤ 70 then some (c.toNat - 55)
  else none

/-- Accumulating decimal value of a digit run. -/
def digitsValAux (acc : Nat) : List Char → Nat
  | [] => acc
  | c :: rest => digitsValAux (acc * 10 + (c.toNat - 48)) rest

/-- Decimal value of a digit run. -/
def digitsVal (l : List Char) : Nat := digitsValAux 0 l

/-- Split off the maximal leading run of decimal digits. -/
def takeDigits : List Char → List Char × List Char
  | [] => ([], [])
  | c :: rest =>
      if isDigitChar c then
        let (ds, r) := takeDigits rest
        (c :: ds, r)
      else ([], c :: rest)

/-- Parse an integer `repr` (optional minus sign, maximal digit run),
returning the rest of the input. -/
def parseInt (l : List Char) : Option (Int × List Char) :=
  match l with
  | [] => none
  | c :: rest =>
      if c = '-' then
        match takeDigits rest with
        | ([], _) => none
        | (ds, r) => some (-(digitsVal ds : Int), r)
      else
        match takeDigits (c :: rest) with
        | ([], _) => none
        | (ds, r) => some ((digitsVal ds : Int), r)

/-- Parse the body of a string `repr` up to the closing quote `q`,
undoing the escapes `pyEscapeChar` emits. -/
def parseStrBody (q : Char) : List Char → Option (List Char × List Char)
  | [] => none
  | c :: rest =>
      if c = q then some ([], rest)
      else if c = '\\' then
        match rest with
        | [] => none
        | 'x' :: h1 :: h2 :: rest3 =>
            (match hexVal h1, hexVal h2 with
             | some a, some b =>
                 (match parseStrBody q rest3 with
                  | some (s, r) => some (Char.ofNat (16 * a + b) :: s, r)
                  | none => none)
             | _, _ => none)
        | 'x' :: _ => none
        | e :: rest2 =>
            let decoded : Char :=
              if e = 'n' then '\n'
              else if e = 'r' then '\r'
              else if e = 't' then '\t'
              else e
            match parseStrBody q rest2 with
            | some (s, r) => some (decoded :: s, r)
            | none => none
      else
        match parseStrBody q rest with
        | some (s, r) => some (c :: s, r)
        | none => none

/-- Parse a string `repr` (either quote style). -/
def parseStr (l : List Char) : Option (List Char × List Char) :=
  match l with
  | [] => none
  | c :: rest => if c = sq || c = dq then parseStrBody c rest else none

/-- Parse a value `repr`: a quote starts a string, anything else is
tried as an integer. -/
def parsePyVal (l : List Char) : Option (PyVal × List Char) :=
  match parseStr l with
  | some (s, r) => some (.str ⟨s⟩, r)
  | none =>
      match parseInt l with
      | some (n, r) => some (.int n, r)
      | none => none

/-- Parse `v (", " v)*` — the element sequence of a tuple display —
with fuel, returning the rest (which begins with the terminator). -/
def parseSepVals : Nat → List Char → Option (List PyVal × List Char)
  | 0, _ => none
  | fuel + 1, l =>
      match parsePyVal l with
      | none => none
      | some (v, r) =>
          match r with
          | ',' :: ' ' :: r2 =>
              (match parseSepVals fuel r2 with
               | some (vs, r3) => some (v :: vs, r3)
               | none => none)
          | _ => some ([v], r)

/-- Parse a tuple `str`, returning the rest of the input. -/
def parseTuple (l : List Char) : Option (List PyVal × List Char) :=
  match l with
  | '(' :: rest =>
      (match rest with
       | [] => none
       | c :: rest2 =>
           if c = ')' then some ([], rest2)
           else
             match parseSepVals (c :: rest2).length (c :: rest2) with
             | some (vs, r) =>
                 (match r with
                  | ',' :: ')' :: r2 => some (vs, r2)
                  | ')' :: r2 => some (vs, r2)
                  | _ => none)
             | none => none)
  | _ => none

/-- Parse one `('name', value)` item, returning the rest. -/
def parsePair (l : List Char) : Option ((String × PyVal) × List Char) :=
  match l with
  | '(' :: rest =>
      (match parseStr rest with
       | some (name, r) =>
           (match r with
            | ',' :: ' ' :: r2 =>
                (match parsePyVal r2 with
                 | some (v, r3) =>
                     (match r3 with
                      | ')' :: r4 => some ((⟨name⟩, v), r4)
                      | _ => none)
                 | none => none)
            | _ => none)
       | none => none)
  | _ => none

/-- Parse `item (", " item)*` with fuel. -/
def parsePairs : Nat → List Char → Option (List (String × PyVal) × List Char)
  | 0, _ => none
  | fuel + 1, l =>
      match parsePair l with
      | none => none
      | some (p, r) =>
          match r with
          | ',' :: ' ' :: r2 =>
              (match parsePairs fuel r2 with
               | some (ps, r3) => some (p :: ps, r3)
               | none => none)
          | _ => some ([p], r)

/-- Parse an items-list `str`, returning the rest of the input. -/
def parseItems (l : List Char) :
    Option (List (String × PyVal) × List Char) :=
  match l with
  | '[' :: rest =>
      (match rest with
       | [] => none
       | c :: rest2 =>
           if c = ']' then some ([], rest2)
           else
             match parsePairs (c :: rest2).length (c :: rest2) with
             | some (ps, r) =>
                 (match r with
                  | ']' :: r2 => some (ps, r2)
                  | _ => none)
             | none => none)
  | _ => none

/-- Parse a whole cache key back into the argument tuple and the sorted
items list. -/
def parseKey (l : List Char) :
    Option (List PyVal × List (String × PyVal)) :=
  match parseTuple l with
  | some (args, r) =>
      (match parseItems r with
       | some (kws, r2) => if r2 = [] then some (args, kws) else none
       | none => none)
  | none => none

/-! ## Search engine and listing (`src/app.py`: `search` lines 1310-1413,
`get_all_posts` lines 761-825)

The document store is modelled by explicit lists of users and posts.
The primary full-text index is external (neosqlite's `$text`), so it
enters the model as a parameter `fts : Post → String → Option (Option Int)`:
`none` means the indexed query does not match the post, `some m` that it
matches with `textScore` metadata `m` (`m = none` when the `_meta`
attribute or its `textScore` entry is absent).  A raised index failure —
the trigger of the `except` fallback branch — is the parameter
`indexRaises`.  The store's `$regex`/`"i"` matching of the escaped query
is modelled by `litPatSearch`, a matcher for the escaped-literal
patterns `re.escape` emits. -/

/-- A row of the `users` collection (the fields the read path uses). -/
structure User where
  name : String
  isActive : Bool
  deriving DecidableEq

/-- A row of the `blog_posts` collection (the fields search uses). -/
structure Post where
  author : String
  title : String
  subtitle : String
  body : String
  deriving DecidableEq

/-- The store contents a request sees. -/
structure Db where
  posts : List Post
  users : List User
  deriving DecidableEq

/-- `[user["name"] for user in db.users.find({"is_active": True})]`. -/
def activeUsers (db : Db) : List String :=
  (db.users.filter (fun u => u.isActive)).map (fun u => u.name)

/-- Case-insensitive character comparison (ASCII). -/
def ciEq (a b : Char) : Bool := asciiToLower a = asciiToLower b

/-- A plain literal at the head of the text, case-insensitively. -/
def plainHere : List Char → List Char → Bool
  | [], _ => true
  | _ :: _, [] => false
  | p :: ps, c :: l => ciEq p c && plainHere ps l

/-- Try a matcher at every suffix (including the empty one). -/
def anySuffix (f : List Char → Bool) : List Char → Bool
  | [] => f []
  | c :: rest => f (c :: rest) || anySuffix f rest

/-- Case-insensitive literal substring containment. -/
def containsCI (q t : List Char) : Bool := anySuffix (plainHere q) t

/-- The characters `re.escape` (Python ≥ 3.7) prefixes with a
backslash. -/
def reSpecial (c : Char) : Bool :=
  c = '(' || c = ')' || c = '[' || c = ']' ||
  c = Char.ofNat 123 || c = Char.ofNat 125 ||
  c = '?' || c = '*' || c = '+' || c = '-' || c = '|' || c = '^' ||
  c = '$' || c = '\\' || c = '.' || c = '&' || c = '~' || c = '#' ||
  c = ' ' || c = '\t' || c = '\n' || c = '\r' || c = '\x0b' || c = '\x0c'

/-- `re.escape(query)`. -/
def reEscape : List Char → List Char
  | [] => []
  | c :: rest => (if reSpecial c then ['\\', c] else [c]) ++ reEscape rest

/-- Match an escaped-literal regex (the only shape `re.escape`
produces: backslash-escaped and plain literal characters) at the head
of a text, case-insensitively. -/
def litPatHere : List Char → List Char → Bool
  | [], _ => true
  | p :: ps, l =>
      if p = '\\' then
        match ps, l with
        | p2 :: ps2, c :: l2 => ciEq p2 c && litPatHere ps2 l2
        | _, _ => false
      else
        match l with
        | c :: l2 => ciEq p c && litPatHere ps l2
        | [] => false

/-- The store's case-insensitive `$regex` search of an escaped-literal
pattern: a match at any position. -/
def litPatSearch (pat txt : List Char) : Bool := anySuffix (litPatHere pat) txt

/-- The `$or` of the three per-field `$regex` clauses of the fallback
query. -/
def fallbackFieldMatch (q : String) (p : Post) : Bool :=
  litPatSearch (reEscape q.data) p.title.data ||
  litPatSearch (reEscape q.data) p.subtitle.data ||
  litPatSearch (reEscape q.data) p.body.data

/-- The fallback `find`: field match and active author. -/
def fallbackHits (db : Db) (q : String) : List Post :=
  db.posts.filter (fun p =>
    fallbackFieldMatch q p && (activeUsers db).contains p.author)

/-- Specification-side definition (from the spec, §4.3 step 3): the
posts whose title, subtitle or body contains the query text as a
case-insensitive literal substring, intersected with the posts whose
author is an active user. -/
def specFallbackSet (db : Db) (q : String) : List Post :=
  db.posts.filter (fun p =>
    (containsCI q.data p.title.data || containsCI q.data p.subtitle.data ||
      containsCI q.data p.body.data) && (activeUsers db).contains p.author)

/-- The primary-path `find`: `$text` hit and active author. -/
def primaryHits (db : Db) (fts : Post → String → Option (Option Int))
    (q : String) : List Post :=
  db.posts.filter (fun p => (fts p q).isSome && (activeUsers db).contains p.author)

/-- The scoring loop: `post["search_score"] = post._meta["textScore"]`
when present, else `0`. -/
def scoredHits (db : Db) (fts : Post → String → Option (Option Int))
    (q : String) : List (Post × Int) :=
  (primaryHits db fts q).map (fun p => (p, ((fts p q).join).getD 0))

/-- The sort key order of `posts.sort(key=..., reverse=True)`. -/
def scoreGe (x y : Post × Int) : Prop := y.2 ≤ x.2

instance : DecidableRel scoreGe :=
  fun x y => inferInstanceAs (Decidable (y.2 ≤ x.2))

instance : IsTotal (Post × Int) scoreGe := ⟨fun a b => Int.le_total b.2 a.2⟩

instance : IsTrans (Post × Int) scoreGe := ⟨fun _ _ _ h1 h2 => le_trans h2 h1⟩

/-- `posts.sort(key=lambda x: x.get("search_score", 0), reverse=True)`:
Python's sort is stable, and every stable sort by the same total
preorder produces the same list, so insertion sort models it exactly. -/
def pySortByScoreDesc (l : List (Post × Int)) : List (Post × Int) :=
  List.insertionSort scoreGe l

/-- The empty-query / listing aggregation:
`db.blog_posts.find({"author": {"$in": active_users}})`. -/
def allPostsAgg (db : Db) : List Post :=
  db.posts.filter (fun p => (activeUsers db).contains p.author)

/-- What the `/search` route renders: the rejection redirect, or a
result list.  A primary-path result carries its `search_score`;
fallback and empty-query results have no score field. -/
inductive SearchOutcome where
  | rejected
  | results (posts : List (Post × Option Int))
  deriving DecidableEq

/-- One run of the `/search` route, instrumented with whether the
primary index was consulted and whether the fallback scan ran. -/
structure SearchRun where
  outcome : SearchOutcome
  indexQueried : Bool
  fallbackScanned : Bool
  deriving DecidableEq

/-- Python truthiness of `request.form.get("query")`. -/
def qTruthy : Option String → Bool
  | none => false
  | some q => q != ""

/-- The `search` route (`src/app.py` lines 1310-1413): reject a truthy
suspicious query before touching the store; otherwise primary `$text`
path with scoring and descending stable sort, falling back to the
escaped-`$regex` scan when the index raises; an absent or empty query
lists all visible posts. -/
def search (db : Db) (fts : Post → String → Option (Option Int))
    (indexRaises : Bool) (query : Option String) : SearchRun :=
  let q := query.getD ""
  if qTruthy query && isSuspiciousInput q then
    { outcome := .rejected, indexQueried := false, fallbackScanned := false }
  else if qTruthy query then
    if !indexRaises then
      { outcome := .results ((pySortByScoreDesc (scoredHits db fts q)).map
          (fun x => (x.1, some x.2))),
        indexQueried := true, fallbackScanned := false }
    else
      { outcome := .results ((fallbackHits db q).map (fun p => (p, none))),
        indexQueried := true, fallbackScanned := true }
  else
    { outcome := .results ((allPostsAgg db).map (fun p => (p, none))),
      indexQueried := false, fallbackScanned := false }

/-- One run of the `get_all_posts` route: the listing shown, the cache
afterwards, and whether the listing came from the cache. -/
structure ListingRun where
  posts : List Post
  cache : Cache (List Post)
  fromCache : Bool
  deriving DecidableEq

/-- `get_cache_key("get_all_posts")`. -/
def listingKey : String := ⟨getCacheKey [.str "get_all_posts"] []⟩

/-- The `get_all_posts` route (`src/app.py` lines 761-825): for
anonymous visitors with the cache enabled, serve a fresh cached listing
or recompute and store it; otherwise compute it directly.  The cached
rendered page is modelled by its data content, the list of visible
posts. -/
def getAllPosts (enabled : Bool) (ttl : Int) (db : Db) (loggedIn : Bool)
    (cache : Cache (List Post)) (now : Int) : ListingRun :=
  if enabled && !loggedIn then
    let refresh : ListingRun :=
      { posts := allPostsAgg db,
        cache := cacheSet cache listingKey (allPostsAgg db, now),
        fromCache := false }
    match cacheGet cache listingKey with
    | some (v, ts) =>
        if now - ts < ttl then { posts := v, cache := cache, fromCache := true }
        else refresh
    | none => refresh
  else
    { posts := allPostsAgg db, cache := cache, fromCache := false }

theorem cacheGet_cacheSet_self {α : Type} (c : Cache α) (k : String) (vt : α × Int) :
    cacheGet (cacheSet c k vt) k = some vt := by
  induction c with
  | nil => simp [cacheSet, cacheGet]
  | cons e rest ih =>
      obtain ⟨k', vt'⟩ := e
      by_cases h : k' = k
      · simp [cacheSet, cacheGet, h]
      · simp [cacheSet, cacheGet, h, ih]

/-- C1: after the cache stores `(v, t0)` for key `k`, a call of the
memoizing wrapper at time `now` returns `v` without invoking the wrapped
function whenever `now - t0 < TTL`, and whenever `now - t0 ≥ TTL` it
behaves as a miss: it invokes the wrapped function and overwrites the
entry with the new value and the fresh timestamp `now`. -/
theorem cachedResult_ttl {ε α : Type} (ttl : Int) (k : String) (v : α)
    (t0 now : Int) (c : Cache α) (f : Unit → Except ε α)
    (hstored : cacheGet c k = some (v, t0)) :
    (now - t0 < ttl →
      cachedResult true ttl k f c now = ⟨.ok v, c, 0⟩) ∧
    (ttl ≤ now - t0 → ∀ w, f () = .ok w →
      cachedResult true ttl k f c now = ⟨.ok w, cacheSet c k (w, now), 1⟩ ∧
      cacheGet (cacheSet c k (w, now)) k = some (w, now)) := by
  constructor
  · intro h
    simp [cachedResult, hstored, h]
  · intro h w hw
    refine ⟨?_, cacheGet_cacheSet_self c k (w, now)⟩
    simp [cachedResult, hstored, not_lt.mpr h, hw]

/-- Witness for C1 at a concrete cache state: key `"k"` stores `(5, 0)`
with TTL 10; at time 3 the wrapper returns the cached 5 without calling
the function, and at time 12 it recomputes, obtaining 7. -/
theorem cachedResult_ttl_witness :
    ((3 : Int) - 0 < 10 ∧
      cachedResult true 10 "k" (fun _ => (.ok 7 : Except Unit Nat))
        [("k", (5, 0))] 3 = ⟨.ok 5, [("k", (5, 0))], 0⟩) ∧
    ((10 : Int) ≤ 12 - 0 ∧
      cachedResult true 10 "k" (fun _ => (.ok 7 : Except Unit Nat))
        [("k", (5, 0))] 12 = ⟨.ok 7, cacheSet [("k", (5, 0))] "k" (7, 12), 1⟩) :=
  ⟨⟨by decide, (cachedResult_ttl 10 "k" 5 0 3 [("k", (5, 0))]
      (fun _ => .ok 7) (by decide)).1 (by decide)⟩,
   ⟨by decide, ((cachedResult_ttl 10 "k" 5 0 12 [("k", (5, 0))]
      (fun _ => .ok 7) (by decide)).2 (by decide) 7 rfl).1⟩⟩

/-- C7 counterexample: `clear_cache` does not consult the feature switch,
so with the cache disabled and a non-empty prior store it still empties
the store — it is not a no-op on every prior cache state. -/
theorem clearCache_not_noop_disabled :
    clearCache ([("k", (1, 0))] : Cache Nat) ≠ [("k", (1, 0))] := by
  decide

/-- C7 (amended): when the cache switch is disabled, a wrapper call
always invokes the wrapped function and leaves the store unchanged (so
lookups behave as misses and nothing is stored), the sweep
(`clear_expired_cache`) and the guarded per-key invalidation leave the
store unchanged; `clear_cache`, however, empties the store
unconditionally (its call sites guard it with the feature check). -/
theorem cacheDisabled_passthrough {ε α : Type} (ttl : Int) (k : String)
    (f : Unit → Except ε α) (c : Cache α) (now : Int) :
    cachedResult false ttl k f c now = ⟨f (), c, 1⟩ ∧
    clearExpiredCache false ttl c now = c ∧
    invalidateKey false c k = c ∧
    clearCache c = [] := by
  refine ⟨?_, ?_, ?_, rfl⟩ <;>
    simp [cachedResult, clearExpiredCache, invalidateKey]

/-- C8: if the wrapped computation raises during a cache miss (no fresh
entry for the key), the exception propagates out of the wrapper and the
cache store is returned exactly as it was — no entry is created or
overwritten. -/
theorem cachedResult_error_propagates {ε α : Type} (ttl : Int) (k : String)
    (now : Int) (c : Cache α) (f : Unit → Except ε α) (e : ε)
    (hf : f () = .error e)
    (hmiss : ∀ v t0, cacheGet c k = some (v, t0) → ttl ≤ now - t0) :
    cachedResult true ttl k f c now = ⟨.error e, c, 1⟩ := by
  unfold cachedResult
  cases hc : cacheGet c k with
  | none => simp [hc, hf]
  | some vt =>
      obtain ⟨v, t0⟩ := vt
      simp [hc, hf, not_lt.mpr (hmiss v t0 hc)]

/-- Witness for C8: on an empty cache, a computation failing with
`"boom"` propagates and the cache stays empty. -/
theorem cachedResult_error_propagates_witness :
    cachedResult true 10 "k" (fun _ => (.error "boom" : Except String Nat))
      ([] : Cache Nat) 5 = ⟨.error "boom", [], 1⟩ :=
  cachedResult_error_propagates 10 "k" 5 [] _ "boom" rfl
    (fun v t0 h => by simp [cacheGet] at h)

theorem pathTail_of_word (l : List Char) :
    ∀ c, isWordChar c = true → pathTail c l = true := by
  induction l with
  | nil => intro c hc; simp [pathTail, hc]
  | cons d rest ih =>
      intro c hc
      cases hd : isWordChar d with
      | false => simp [pathTail, hc, hd]
      | true => simp [pathTail, isPathClass, hd, ih d hd]

theorem lastOpt_append_singleton (l : List Char) (prev : Option Char) (a : Char) :
    lastOpt prev (l ++ [a]) = some a := by
  induction l generalizing prev with
  | nil => rfl
  | cons c rest ih => exact ih (some c)

theorem matchAnywhere_suffix (f : Option Char → List Char → Bool)
    (l1 : List Char) (prev : Option Char) (c : Char) (l2 : List Char)
    (h : f (lastOpt prev l1) (c :: l2) = true) :
    matchAnywhere f prev (l1 ++ c :: l2) = true := by
  induction l1 generalizing prev with
  | nil => simpa [matchAnywhere] using Or.inl h
  | cons d rest ih =>
      simp only [List.cons_append, matchAnywhere, Bool.or_eq_true]
      exact Or.inr (ih (some d) h)

/-- C10: any text containing a word character immediately followed by a
forward slash immediately followed by another word character is
classified suspicious: the file-path pattern's `\/` alternative matches
at the slash (the word boundary holds, and the trailing word character
starts a class run ending at a word boundary). -/
theorem word_slash_word_suspicious (s : String) (l1 l2 : List Char)
    (a b : Char) (hs : s.data = l1 ++ a :: '/' :: b :: l2)
    (ha : isWordChar a = true) (hb : isWordChar b = true) :
    isSuspiciousInput s = true := by
  have hslash : isWordChar '/' = false := by decide
  have hpath : pathAt (some a) ('/' :: b :: l2) = true := by
    have hb' : isPathClass b = true := by simp [isPathClass, hb]
    have ht : pathTail b l2 = true := pathTail_of_word l2 b hb
    simp [pathAt, atBoundary, isWordOpt, isWordHead, ha, hslash,
      slashAlt, pathAfterAlt, hb', ht]
  have hmatch : matchAnywhere pathAt none ((l1 ++ [a]) ++ '/' :: b :: l2) = true := by
    apply matchAnywhere_suffix
    rw [lastOpt_append_singleton]
    exact hpath
  have hmatch' : matchAnywhere pathAt none (l1 ++ a :: '/' :: b :: l2) = true := by
    simpa using hmatch
  simp [isSuspiciousInput, codeMatch, hs, hmatch']

/-- Witness for C10: `"tcp/ip"` is classified suspicious. -/
theorem word_slash_word_suspicious_witness :
    ("tcp/ip" : String).data = ['t', 'c'] ++ 'p' :: '/' :: 'i' :: ['p'] ∧
    isWordChar 'p' = true ∧ isWordChar 'i' = true ∧
    isSuspiciousInput "tcp/ip" = true :=
  ⟨by decide, by decide, by decide,
   word_slash_word_suspicious "tcp/ip" ['t', 'c'] ['p'] 'p' 'i'
     (by decide) (by decide) (by decide)⟩

/-- C9 counterexample: a text of 21 underscores.  Every one of its
characters is non-alphanumeric and non-whitespace, so the claim's
density premise holds (100% > 30%, length 21 > 20), yet the sanitizer
classifies it as not suspicious: Python's `[^\w\s]` treats `_` as a
word character, so the measured density is 0%. -/
theorem densityClaim_false_on_underscores :
    (("_____________________" : String).length > 20 ∧
     10 * ((("_____________________" : String).data.filter
         (fun c => !c.isAlphanum && !isSpaceChar c)).length) >
       3 * ("_____________________" : String).length) ∧
    isSuspiciousInput "_____________________" = false := by
  constructor
  · constructor <;> decide
  · decide

/-- C9 (amended): for every text longer than 20 characters in which more
than 30% of the characters match `[^\w\s]` (not a word character — i.e.
not alphanumeric and not underscore — and not whitespace), the sanitizer
classifies the text as suspicious; and for texts of at most 20
characters the classification equals the pattern checks alone, so the
density heuristic never by itself causes a suspicious classification. -/
theorem density_heuristic (s : String) :
    (s.length > 20 →
      10 * (s.data.filter (fun c => !isWordChar c && !isSpaceChar c)).length >
          3 * s.length →
      isSuspiciousInput s = true) ∧
    (s.length ≤ 20 →
      isSuspiciousInput s = (urlMatch s.data || codeMatch s.data)) := by
  have hlen : s.length = s.data.length := rfl
  constructor
  · intro h1 h2
    have hd : densityCheck s.data = true := by
      simp only [densityCheck, Bool.and_eq_true, decide_eq_true_eq]
      exact ⟨hlen ▸ h1, hlen ▸ h2⟩
    simp [isSuspiciousInput, hd]
  · intro h
    have hd : densityCheck s.data = false := by
      simp only [densityCheck, Bool.and_eq_false_iff, decide_eq_false_iff_not, not_lt]
      exact Or.inl (hlen ▸ h)
    simp [isSuspiciousInput, hd]

/-- Witness for C9 (amended): the spec's own vectors — the 26-character
high-density text is suspicious by the density heuristic, and the short
text `"C++"` is judged by the pattern checks alone. -/
theorem density_heuristic_witness :
    (("%%%%%%%%%%%%%%@@@@@@@@@@@@" : String).length > 20 ∧
     10 * ((("%%%%%%%%%%%%%%@@@@@@@@@@@@" : String).data.filter
         (fun c => !isWordChar c && !isSpaceChar c)).length) >
       3 * ("%%%%%%%%%%%%%%@@@@@@@@@@@@" : String).length ∧
     isSuspiciousInput "%%%%%%%%%%%%%%@@@@@@@@@@@@" = true) ∧
    (("C++" : String).length ≤ 20 ∧
     isSuspiciousInput "C++" =
       (urlMatch ("C++" : String).data || codeMatch ("C++" : String).data)) :=
  ⟨⟨by decide, by decide, (density_heuristic _).1 (by decide) (by decide)⟩,
   ⟨by decide, (density_heuristic _).2 (by decide)⟩⟩

/-- C2: a query the sanitizer classifies as suspicious makes the search
route reject immediately: the outcome is the invalid-query rejection
(flash and redirect), and neither the index nor the fallback scan — nor
any post query at all — is performed. -/
theorem suspicious_query_rejected (db : Db)
    (fts : Post → String → Option (Option Int)) (indexRaises : Bool)
    (q : String) (hq : isSuspiciousInput q = true) :
    search db fts indexRaises (some q) =
      { outcome := .rejected, indexQueried := false, fallbackScanned := false } := by
  have hne : q ≠ "" := by
    intro h
    rw [h] at hq
    exact absurd hq (by decide)
  simp [search, qTruthy, hq, hne]

/-- Witness for C2: the spec's script-injection vector is rejected
without touching the store. -/
theorem suspicious_query_rejected_witness :
    isSuspiciousInput "<script>alert(1)</script>" = true ∧
    search { posts := [], users := [] } (fun _ _ => none) false
        (some "<script>alert(1)</script>") =
      { outcome := .rejected, indexQueried := false, fallbackScanned := false } :=
  ⟨by decide, suspicious_query_rejected _ _ _ _ (by decide)⟩

theorem litPatHere_reEscape (q : List Char) :
    ∀ l, litPatHere (reEscape q) l = plainHere q l := by
  induction q with
  | nil => intro l; rfl
  | cons c qs ih =>
      intro l
      by_cases hc : reSpecial c = true
      · rw [reEscape, if_pos hc]
        cases l with
        | nil => simp [litPatHere, plainHere]
        | cons x xs => simp [litPatHere, plainHere, ih]
      · have hcb : c ≠ '\\' := by
          intro h
          rw [h] at hc
          exact hc (by decide)
        rw [reEscape, if_neg hc]
        cases l with
        | nil =>
            show litPatHere (c :: reEscape qs) [] = plainHere (c :: qs) []
            conv_lhs => unfold litPatHere
            rw [if_neg hcb]
            rfl
        | cons x xs =>
            show litPatHere (c :: reEscape qs) (x :: xs) = plainHere (c :: qs) (x :: xs)
            conv_lhs => unfold litPatHere
            rw [if_neg hcb]
            show (ciEq c x && litPatHere (reEscape qs) xs) = plainHere (c :: qs) (x :: xs)
            rw [ih, plainHere]

theorem litPatSearch_reEscape (q t : List Char) :
    litPatSearch (reEscape q) t = containsCI q t := by
  unfold litPatSearch containsCI
  induction t with
  | nil => simp [anySuffix, litPatHere_reEscape]
  | cons c rest ih => simp [anySuffix, litPatHere_reEscape, ih]

/-- C3: when the primary index raises on a (clean, non-empty) query, the
fallback path returns exactly the posts whose title, subtitle or body
contains the query as a case-insensitive literal substring, intersected
with the active-author filter — the escaped `$regex` scan coincides with
the specification's substring match — with no relevance scores
attached. -/
theorem fallback_matches_spec (db : Db)
    (fts : Post → String → Option (Option Int)) (q : String)
    (hne : q ≠ "") (hsusp : isSuspiciousInput q = false) :
    search db fts true (some q) =
      { outcome := .results ((specFallbackSet db q).map (fun p => (p, none))),
        indexQueried := true, fallbackScanned := true } := by
  have hfb : fallbackHits db q = specFallbackSet db q := by
    unfold fallbackHits specFallbackSet fallbackFieldMatch
    congr 1
    funext p
    rw [litPatSearch_reEscape, litPatSearch_reEscape, litPatSearch_reEscape]
  simp [search, qTruthy, hne, hsusp, hfb]

/-- Witness for C3: the spec's "ocean" scenario — two active-author
posts match, the deactivated author's matching post is excluded, a
non-matching post is excluded. -/
theorem fallback_matches_spec_witness :
    isSuspiciousInput "ocean" = false ∧
    search
        { posts :=
            [{ author := "alice", title := "Ocean waves", subtitle := "s", body := "b" },
             { author := "bob", title := "the ocean", subtitle := "s", body := "b" },
             { author := "alice", title := "hills", subtitle := "s", body := "deep OCEAN" },
             { author := "alice", title := "hills", subtitle := "s", body := "forest" }],
          users := [{ name := "alice", isActive := true },
                    { name := "bob", isActive := false }] }
        (fun _ _ => none) true (some "ocean") =
      { outcome := .results
          [({ author := "alice", title := "Ocean waves", subtitle := "s", body := "b" }, none),
           ({ author := "alice", title := "hills", subtitle := "s", body := "deep OCEAN" }, none)],
        indexQueried := true, fallbackScanned := true } := by
  refine ⟨by decide, ?_⟩
  rw [fallback_matches_spec _ _ _ (by decide) (by decide)]
  decide

theorem search_results_active (db : Db)
    (fts : Post → String → Option (Option Int)) (indexRaises : Bool)
    (query : Option String) (l : List (Post × Option Int))
    (hout : (search db fts indexRaises query).outcome = .results l) :
    ∀ x ∈ l, (activeUsers db).contains x.1.author = true := by
  simp only [search] at hout
  split at hout
  · simp at hout
  · split at hout
    · split at hout
      · simp only [SearchOutcome.results.injEq] at hout
        subst hout
        intro x hx
        obtain ⟨y, hy, rfl⟩ := List.mem_map.mp hx
        rw [pySortByScoreDesc,
          (List.perm_insertionSort scoreGe _).mem_iff] at hy
        obtain ⟨p, hp, rfl⟩ := List.mem_map.mp hy
        have := (List.mem_filter.mp hp).2
        exact (Bool.and_eq_true _ _ |>.mp this).2
      · simp only [SearchOutcome.results.injEq] at hout
        subst hout
        intro x hx
        obtain ⟨p, hp, rfl⟩ := List.mem_map.mp hx
        have := (List.mem_filter.mp hp).2
        exact (Bool.and_eq_true _ _ |>.mp this).2
    · simp only [SearchOutcome.results.injEq] at hout
      subst hout
      intro x hx
      obtain ⟨p, hp, rfl⟩ := List.mem_map.mp hx
      exact (List.mem_filter.mp hp).2

/-- C4: a post whose author is not in the active-user set computed for
the request never appears in any search outcome (primary, fallback or
empty-query path) nor in the full post listing: the listing is free of
it whenever it is computed fresh, and any listing cache entry the
request writes is exactly the fresh aggregation, which excludes it
(entries not written are untouched from the prior state). -/
theorem inactive_author_never_shown (db : Db) (p : Post)
    (hp : (activeUsers db).contains p.author = false) :
    (∀ fts indexRaises query l,
        (search db fts indexRaises query).outcome = .results l →
        ∀ sc, (p, sc) ∉ l) ∧
    p ∉ allPostsAgg db ∧
    (∀ enabled ttl loggedIn cache now,
        ((getAllPosts enabled ttl db loggedIn cache now).fromCache = false →
          p ∉ (getAllPosts enabled ttl db loggedIn cache now).posts) ∧
        (∀ v t,
            cacheGet (getAllPosts enabled ttl db loggedIn cache now).cache
                listingKey = some (v, t) →
            cacheGet cache listingKey = some (v, t) ∨ p ∉ v)) := by
  have hagg : p ∉ allPostsAgg db := by
    intro hmem
    rw [allPostsAgg, List.mem_filter] at hmem
    exact Bool.false_ne_true (hp ▸ hmem.2)
  refine ⟨?_, hagg, ?_⟩
  · intro fts ir query l hout sc hmem
    have hact := search_results_active db fts ir query l hout (p, sc) hmem
    rw [hp] at hact
    exact Bool.false_ne_true hact
  · intro enabled ttl loggedIn cache now
    unfold getAllPosts
    by_cases hb : (enabled && !loggedIn) = true
    · rw [if_pos hb]
      cases hcg : cacheGet cache listingKey with
      | none =>
          dsimp only
          refine ⟨fun _ => hagg, fun v t hv => ?_⟩
          rw [cacheGet_cacheSet_self] at hv
          right
          simp only [Option.some.injEq, Prod.mk.injEq] at hv
          obtain ⟨rfl, rfl⟩ := hv
          exact hagg
      | some vt =>
          obtain ⟨v0, t0⟩ := vt
          dsimp only
          by_cases hfresh : now - t0 < ttl
          · rw [if_pos hfresh]
            refine ⟨fun h => absurd h (by simp), fun v t hv => ?_⟩
            dsimp only at hv
            rw [hcg] at hv
            exact Or.inl hv
          · rw [if_neg hfresh]
            refine ⟨fun _ => hagg, fun v t hv => ?_⟩
            rw [cacheGet_cacheSet_self] at hv
            right
            simp only [Option.some.injEq, Prod.mk.injEq] at hv
            obtain ⟨rfl, rfl⟩ := hv
            exact hagg
    · rw [if_neg hb]
      exact ⟨fun _ => hagg, fun v t hv => Or.inl hv⟩

/-- Witness for C4: a deactivated author's matching post is absent from
the visible listing aggregation. -/
theorem inactive_author_never_shown_witness :
    ((activeUsers
        { posts := [{ author := "bob", title := "ocean", subtitle := "s", body := "b" }],
          users := [{ name := "bob", isActive := false }] }).contains
      ({ author := "bob", title := "ocean", subtitle := "s", body := "b" } : Post).author
        = false) ∧
    ({ author := "bob", title := "ocean", subtitle := "s", body := "b" } : Post) ∉
      allPostsAgg
        { posts := [{ author := "bob", title := "ocean", subtitle := "s", body := "b" }],
          users := [{ name := "bob", isActive := false }] } :=
  ⟨by decide, (inactive_author_never_shown _ _ (by decide)).2.1⟩

theorem filter_orderedInsert_score (c : Int) (a : Post × Int)
    (l : List (Post × Int)) :
    (List.orderedInsert scoreGe a l).filter (fun x => x.2 == c) =
      if a.2 = c then a :: l.filter (fun x => x.2 == c)
      else l.filter (fun x => x.2 == c) := by
  induction l with
  | nil =>
      by_cases hac : a.2 = c
      · simp [List.orderedInsert, List.filter, hac]
      · have hbc : (a.2 == c) = false := by
          rw [beq_eq_false_iff_ne]
          exact hac
        simp [List.orderedInsert, List.filter, hbc, hac]
  | cons b t ih =>
      by_cases hab : scoreGe a b
      · rw [show List.orderedInsert scoreGe a (b :: t) = a :: b :: t from by
          simp [List.orderedInsert, hab]]
        by_cases hac : a.2 = c <;> simp [List.filter_cons, beq_iff_eq, hac]
      · have hins : List.orderedInsert scoreGe a (b :: t) =
            b :: List.orderedInsert scoreGe a t := by
          simp [List.orderedInsert, hab]
        rw [hins]
        have hlt : a.2 < b.2 := not_le.mp hab
        by_cases hac : a.2 = c
        · have hbc : b.2 ≠ c := by
            intro h
            rw [h, ← hac] at hlt
            exact lt_irrefl _ hlt
          simp [List.filter_cons, hbc, ih, hac]
        · simp [List.filter_cons, ih, hac]

theorem filter_pySortByScoreDesc (c : Int) (l : List (Post × Int)) :
    (pySortByScoreDesc l).filter (fun x => x.2 == c) =
      l.filter (fun x => x.2 == c) := by
  induction l with
  | nil => rfl
  | cons a t ih =>
      rw [pySortByScoreDesc, List.insertionSort,
        show List.insertionSort scoreGe t = pySortByScoreDesc t from rfl,
        filter_orderedInsert_score]
      by_cases hac : a.2 = c
      · simp [List.filter_cons, hac, ih]
      · simp [List.filter_cons, hac, ih]

/-- C5: on the primary path (clean non-empty query, index available)
the outcome is the scored hits sorted by `search_score` descending with
a stable sort: the returned list is sorted under `scoreGe`, is a
permutation of the scored hits, posts of equal score keep the store's
natural order (the sublist at each score value is unchanged), and —
the index supplying a `textScore` for every hit — each returned post
carries exactly the index's native score. -/
theorem primary_path_ranking (db : Db)
    (fts : Post → String → Option (Option Int)) (q : String)
    (hne : q ≠ "") (hsusp : isSuspiciousInput q = false)
    (hscore : ∀ p m, fts p q = some m → m.isSome = true) :
    (search db fts false (some q)).outcome =
      .results ((pySortByScoreDesc (scoredHits db fts q)).map
        (fun x => (x.1, some x.2))) ∧
    (pySortByScoreDesc (scoredHits db fts q)).Pairwise scoreGe ∧
    (pySortByScoreDesc (scoredHits db fts q)).Perm (scoredHits db fts q) ∧
    (∀ c : Int,
        (pySortByScoreDesc (scoredHits db fts q)).filter (fun x => x.2 == c) =
          (scoredHits db fts q).filter (fun x => x.2 == c)) ∧
    (∀ x ∈ pySortByScoreDesc (scoredHits db fts q),
        fts x.1 q = some (some x.2)) := by
  refine ⟨?_, ?_, ?_, fun c => filter_pySortByScoreDesc c _, ?_⟩
  · simp [search, qTruthy, hne, hsusp]
  · exact List.sorted_insertionSort scoreGe _
  · exact List.perm_insertionSort scoreGe _
  · intro x hx
    rw [pySortByScoreDesc, (List.perm_insertionSort scoreGe _).mem_iff] at hx
    obtain ⟨p, hp, rfl⟩ := List.mem_map.mp hx
    have hmem := (List.mem_filter.mp hp).2
    have hsome := (Bool.and_eq_true _ _ |>.mp hmem).1
    obtain ⟨m, hm⟩ := Option.isSome_iff_exists.mp hsome
    obtain ⟨k, hk⟩ := Option.isSome_iff_exists.mp (hscore p m hm)
    subst hk
    simp [hm, Option.join]

/-- Witness for C5: a one-post store where the index scores the hit 3;
the outcome is the sorted scored map. -/
theorem primary_path_ranking_witness :
    isSuspiciousInput "ocean" = false ∧
    (search
        { posts := [{ author := "alice", title := "a", subtitle := "s", body := "ocean" }],
          users := [{ name := "alice", isActive := true }] }
        (fun _ _ => some (some 3)) false (some "ocean")).outcome =
      .results ((pySortByScoreDesc (scoredHits
          { posts := [{ author := "alice", title := "a", subtitle := "s", body := "ocean" }],
            users := [{ name := "alice", isActive := true }] }
          (fun _ _ => some (some 3)) "ocean")).map (fun x => (x.1, some x.2))) :=
  ⟨by decide,
   (primary_path_ranking _ _ _ (by decide) (by decide)
      (fun p m h => by injection h with h2; rw [← h2]; rfl)).1⟩

theorem toNat_charOfNat (n : Nat) (h : n < 55296) : (Char.ofNat n).toNat = n := by
  have hv : n.isValidChar := Or.inl h
  rw [Char.ofNat, dif_pos hv]
  simp [Char.ofNatAux, Char.toNat, UInt32.toNat, BitVec.toNat_ofNatLt]

theorem charOfNat_toNat (c : Char) : Char.ofNat c.toNat = c := by
  have hv : c.toNat.isValidChar := c.valid
  rw [Char.ofNat, dif_pos hv]
  apply Char.eq_of_val_eq
  simp [Char.ofNatAux, Char.toNat]
  apply UInt32.eq_of_toBitVec_eq
  simp [BitVec.eq_of_toNat_eq, UInt32.toNat]
  apply BitVec.eq_of_toNat_eq
  simp

theorem toNat_digitChar (d : Nat) (h : d < 10) : (digitChar d).toNat = 48 + d := by
  rw [digitChar]
  exact toNat_charOfNat _ (by omega)

theorem isDigitChar_digitChar (d : Nat) (h : d < 10) :
    isDigitChar (digitChar d) = true := by
  simp only [isDigitChar, toNat_digitChar d h]
  simp only [Bool.and_eq_true, decide_eq_true_eq]
  omega

theorem digit_ne_minus {c : Char} (h : isDigitChar c = true) : c ≠ '-' := by
  intro he
  rw [he] at h
  exact absurd h (by decide)

theorem hexVal_hexDigitChar (d : Nat) (h : d < 16) :
    hexVal (hexDigitChar d) = some d := by
  rw [hexDigitChar]
  by_cases h10 : d < 10
  · rw [if_pos h10]
    have ht : (Char.ofNat (48 + d)).toNat = 48 + d := toNat_charOfNat _ (by omega)
    simp only [hexVal, ht]
    rw [if_pos (by simp only [Bool.and_eq_true, decide_eq_true_eq]; omega)]
    congr 1
    omega
  · rw [if_neg h10]
    have ht : (Char.ofNat (87 + d)).toNat = 87 + d := toNat_charOfNat _ (by omega)
    simp only [hexVal, ht]
    rw [if_neg (by simp only [Bool.and_eq_true, decide_eq_true_eq]; omega),
      if_pos (by simp only [Bool.and_eq_true, decide_eq_true_eq]; omega)]
    congr 1
    omega

theorem natDigits_ne_nil (n : Nat) : natDigits n ≠ [] := by
  rw [natDigits]
  split
  · simp
  · simp

theorem natDigits_all_digits (n : Nat) :
    ∀ c ∈ natDigits n, isDigitChar c = true := by
  induction n using Nat.strong_induction_on with
  | _ n ih =>
      rw [natDigits]
      split
      · next h =>
          intro c hc
          rw [List.mem_singleton] at hc
          subst hc
          exact isDigitChar_digitChar n h
      · next h =>
          intro c hc
          rcases List.mem_append.mp hc with h1 | h2
          · exact ih (n / 10) (Nat.div_lt_self (by omega) (by omega)) c h1
          · rw [List.mem_singleton] at h2
            subst h2
            exact isDigitChar_digitChar _ (Nat.mod_lt _ (by omega))

theorem digitsValAux_append (a : Nat) (l1 l2 : List Char) :
    digitsValAux a (l1 ++ l2) = digitsValAux (digitsValAux a l1) l2 := by
  induction l1 generalizing a with
  | nil => rfl
  | cons c rest ih => exact ih (a * 10 + (c.toNat - 48))

theorem digitsVal_natDigits (n : Nat) : digitsVal (natDigits n) = n := by
  induction n using Nat.strong_induction_on with
  | _ n ih =>
      rw [natDigits]
      split
      · next h =>
          have h1 : digitsVal [digitChar n] = 0 * 10 + ((digitChar n).toNat - 48) := rfl
          rw [h1, toNat_digitChar n h]
          omega
      · next h =>
          have hm : n % 10 < 10 := by omega
          rw [digitsVal, digitsValAux_append]
          have ih' : digitsValAux 0 (natDigits (n / 10)) = n / 10 :=
            ih (n / 10) (Nat.div_lt_self (by omega) (by omega))
          rw [ih']
          have h2 : digitsValAux (n / 10) [digitChar (n % 10)] =
              (n / 10) * 10 + ((digitChar (n % 10)).toNat - 48) := rfl
          rw [h2, toNat_digitChar (n % 10) hm]
          omega

theorem takeDigits_append (ds rest : List Char)
    (hds : ∀ c ∈ ds, isDigitChar c = true)
    (hrest : ∀ c, rest.head? = some c → isDigitChar c = false) :
    takeDigits (ds ++ rest) = (ds, rest) := by
  induction ds with
  | nil =>
      cases rest with
      | nil => rfl
      | cons c r =>
          have := hrest c rfl
          simp [takeDigits, this]
  | cons d ds ih =>
      have hd := hds d (List.mem_cons_self d ds)
      have ih' := ih (fun c hc => hds c (List.mem_cons_of_mem d hc))
      simp [takeDigits, hd, ih']

theorem parseInt_intRepr (n : Int) (rest : List Char)
    (hrest : ∀ c, rest.head? = some c → isDigitChar c = false) :
    parseInt (intRepr n ++ rest) = some (n, rest) := by
  cases n with
  | ofNat m =>
      obtain ⟨c, cs, hcons⟩ := List.exists_cons_of_ne_nil (natDigits_ne_nil m)
      have hdig : isDigitChar c = true := by
        apply natDigits_all_digits m
        rw [hcons]
        exact List.mem_cons_self c cs
      have htd : takeDigits (c :: (cs ++ rest)) = (c :: cs, rest) := by
        rw [← List.cons_append, ← hcons]
        exact takeDigits_append _ _ (natDigits_all_digits m) hrest
      have hval : digitsVal (c :: cs) = m := by
        rw [← hcons]
        exact digitsVal_natDigits m
      rw [show intRepr (Int.ofNat m) = natDigits m from rfl, hcons, List.cons_append]
      simp only [parseInt]
      rw [if_neg (digit_ne_minus hdig), htd]
      simp [hval]
  | negSucc m =>
      obtain ⟨c, cs, hcons⟩ := List.exists_cons_of_ne_nil (natDigits_ne_nil (m + 1))
      have htd : takeDigits (natDigits (m + 1) ++ rest) = (c :: cs, rest) := by
        rw [takeDigits_append _ _ (natDigits_all_digits _) hrest, hcons]
      have hval : digitsVal (c :: cs) = m + 1 := by
        rw [← hcons]
        exact digitsVal_natDigits _
      rw [show intRepr (Int.negSucc m) = '-' :: natDigits (m + 1) from rfl,
        List.cons_append]
      simp only [parseInt]
      rw [htd]
      simp only [hval, if_true]
      simp only [Option.some.injEq, Prod.mk.injEq]
      refine ⟨?_, trivial⟩
      rw [Int.negSucc_eq]
      push_cast
      ring

theorem parseStrBody_escape (q : Char) (hq : q = sq ∨ q = dq) :
    ∀ s : List Char, (∀ c ∈ s, c.toNat < 128) →
    ∀ rest : List Char,
      parseStrBody q (escapeList q s ++ (q :: rest)) = some (s, rest) := by
  have hq1 : q ≠ '\\' := by rcases hq with rfl | rfl <;> decide
  have hq2 : q ≠ 'x' := by rcases hq with rfl | rfl <;> decide
  have hq3 : q ≠ 'n' := by rcases hq with rfl | rfl <;> decide
  have hq4 : q ≠ 'r' := by rcases hq with rfl | rfl <;> decide
  have hq5 : q ≠ 't' := by rcases hq with rfl | rfl <;> decide
  intro s
  induction s with
  | nil =>
      intro _ rest
      simp only [escapeList, List.nil_append]
      unfold parseStrBody
      rw [if_pos rfl]
  | cons c cs ih =>
      intro hall rest
      have hc128 : c.toNat < 128 := hall c (List.mem_cons_self _ _)
      have ihr := ih (fun x hx => hall x (List.mem_cons_of_mem _ hx)) rest
      simp only [escapeList, List.append_assoc]
      rw [pyEscapeChar]
      by_cases h1 : c = '\\'
      · subst h1
        rw [if_pos rfl]
        simp [parseStrBody, Ne.symm hq1, ihr]
      · rw [if_neg h1]
        by_cases h2 : c = q
        · subst h2
          rw [if_pos rfl]
          simp [parseStrBody, Ne.symm hq1, hq2, hq3, hq4, hq5, ihr]
        · rw [if_neg h2]
          by_cases h3 : c = '\n'
          · subst h3
            rw [if_pos rfl]
            simp [parseStrBody, Ne.symm hq1, ihr]
          · rw [if_neg h3]
            by_cases h4 : c = '\r'
            · subst h4
              rw [if_pos rfl]
              simp [parseStrBody, Ne.symm hq1, ihr]
            · rw [if_neg h4]
              by_cases h5 : c = '\t'
              · subst h5
                rw [if_pos rfl]
                simp [parseStrBody, Ne.symm hq1, ihr]
              · rw [if_neg h5]
                by_cases h6 : (c.toNat < 32 || c.toNat ≥ 127) = true
                · rw [if_pos h6]
                  have e1 : hexVal (hexDigitChar (c.toNat / 16 % 16)) =
                      some (c.toNat / 16 % 16) :=
                    hexVal_hexDigitChar _ (by omega)
                  have e2 : hexVal (hexDigitChar (c.toNat % 16)) =
                      some (c.toNat % 16) :=
                    hexVal_hexDigitChar _ (by omega)
                  have e3 : 16 * (c.toNat / 16 % 16) + c.toNat % 16 = c.toNat := by
                    omega
                  simp [parseStrBody, Ne.symm hq1, e1, e2, e3, charOfNat_toNat, ihr]
                · rw [if_neg h6]
                  simp only [List.singleton_append]
                  conv_lhs => unfold parseStrBody
                  rw [if_neg h2, if_neg h1, ihr]

theorem parseStr_strRepr (s : List Char) (hs : ∀ c ∈ s, c.toNat < 128)
    (rest : List Char) :
    parseStr (strRepr s ++ rest) = some (s, rest) := by
  rw [strRepr]
  have hcq : chooseQuote s = sq ∨ chooseQuote s = dq := by
    rw [chooseQuote]
    split
    · exact Or.inr rfl
    · exact Or.inl rfl
  simp only [List.cons_append, List.append_assoc, List.singleton_append]
  rcases hcq with h | h
  · rw [h]
    simp only [parseStr]
    rw [if_pos (by decide)]
    exact parseStrBody_escape _ (Or.inl rfl) s hs rest
  · rw [h]
    simp only [parseStr]
    rw [if_pos (by decide)]
    exact parseStrBody_escape _ (Or.inr rfl) s hs rest

theorem pyRepr_ne_nil (v : PyVal) : pyRepr v ≠ [] := by
  cases v with
  | int n =>
      cases n with
      | ofNat m => exact natDigits_ne_nil m
      | negSucc m => simp [pyRepr, intRepr]
  | str s => simp [pyRepr, strRepr]

theorem digit_not_quote {c : Char} (h : isDigitChar c = true) :
    ¬(((c = sq || c = dq) : Bool) = true) := by
  simp only [isDigitChar, Bool.and_eq_true, decide_eq_true_eq] at h
  simp only [Bool.or_eq_true, decide_eq_true_eq]
  rintro (rfl | rfl) <;> revert h <;> decide

theorem parseStr_intRepr (n : Int) (rest : List Char) :
    parseStr (intRepr n ++ rest) = none := by
  cases n with
  | ofNat m =>
      obtain ⟨c, cs, hcons⟩ := List.exists_cons_of_ne_nil (natDigits_ne_nil m)
      have hdig : isDigitChar c = true := by
        apply natDigits_all_digits m
        rw [hcons]
        exact List.mem_cons_self c cs
      rw [show intRepr (Int.ofNat m) = natDigits m from rfl, hcons,
        List.cons_append]
      unfold parseStr
      dsimp only
      rw [if_neg (digit_not_quote hdig)]
  | negSucc m =>
      rw [show intRepr (Int.negSucc m) = '-' :: natDigits (m + 1) from rfl,
        List.cons_append]
      unfold parseStr
      dsimp only
      rw [if_neg (by decide)]

theorem parsePyVal_pyRepr (v : PyVal) (hv : pyValAscii v = true)
    (rest : List Char)
    (hrest : ∀ c, rest.head? = some c → isDigitChar c = false) :
    parsePyVal (pyRepr v ++ rest) = some (v, rest) := by
  cases v with
  | str s =>
      have hs : ∀ c ∈ s.data, c.toNat < 128 := by
        rw [pyValAscii] at hv
        intro c hc
        have := (List.all_eq_true.mp hv) c hc
        simpa using this
      unfold parsePyVal
      rw [show pyRepr (PyVal.str s) = strRepr s.data from rfl,
        parseStr_strRepr s.data hs rest]
  | int n =>
      unfold parsePyVal
      rw [show pyRepr (PyVal.int n) = intRepr n from rfl, parseStr_intRepr,
        parseInt_intRepr n rest hrest]

theorem joinCommaSpace_length_ge (xs : List (List Char))
    (hne : ∀ x ∈ xs, x ≠ []) : xs.length ≤ (joinCommaSpace xs).length := by
  induction xs with
  | nil => simp [joinCommaSpace]
  | cons x xs ih =>
      cases xs with
      | nil =>
          have hx := hne x (List.mem_cons_self _ _)
          cases x with
          | nil => exact absurd rfl hx
          | cons c cs => simp [joinCommaSpace]
      | cons y ys =>
          have ihy := ih (fun z hz => hne z (List.mem_cons_of_mem _ hz))
          have hx := hne x (List.mem_cons_self _ _)
          have hx1 : 1 ≤ x.length := by
            cases x with
            | nil => exact absurd rfl hx
            | cons c cs => simp
          simp only [joinCommaSpace, List.length_append, List.length_cons] at ihy ⊢
          omega

theorem parseSepVals_roundtrip :
    ∀ vs : List PyVal, vs ≠ [] → vs.all pyValAscii = true →
    ∀ fuel : Nat, vs.length ≤ fuel →
    ∀ rest : List Char,
      ((∃ r, rest = ')' :: r) ∨ (∃ r, rest = ']' :: r) ∨
        (∃ r, rest = ',' :: ')' :: r)) →
      parseSepVals fuel (joinCommaSpace (vs.map pyRepr) ++ rest) =
        some (vs, rest) := by
  intro vs
  induction vs with
  | nil => intro h; exact absurd rfl h
  | cons v vs ih =>
      intro _ hascii fuel hfuel rest hrest
      rw [List.all_cons, Bool.and_eq_true] at hascii
      obtain ⟨hv, hvs⟩ := hascii
      cases fuel with
      | zero => simp at hfuel
      | succ f =>
          cases vs with
          | nil =>
              have hnd : ∀ c, rest.head? = some c → isDigitChar c = false := by
                rcases hrest with ⟨r, rfl⟩ | ⟨r, rfl⟩ | ⟨r, rfl⟩ <;>
                  (intro c hc; injection hc with hc; subst hc; decide)
              rw [show joinCommaSpace ([v].map pyRepr) = pyRepr v from rfl]
              unfold parseSepVals
              rw [parsePyVal_pyRepr v hv rest hnd]
              rcases hrest with ⟨r, rfl⟩ | ⟨r, rfl⟩ | ⟨r, rfl⟩ <;> rfl
          | cons v2 vs2 =>
              have hnd : ∀ c,
                  (',' :: ' ' :: (joinCommaSpace ((v2 :: vs2).map pyRepr) ++ rest)).head? =
                    some c → isDigitChar c = false := by
                intro c hc
                injection hc with hc
                subst hc
                decide
              rw [show joinCommaSpace ((v :: v2 :: vs2).map pyRepr) =
                  pyRepr v ++ ',' :: ' ' :: joinCommaSpace ((v2 :: vs2).map pyRepr)
                  from rfl, List.append_assoc]
              unfold parseSepVals
              rw [show (',' :: ' ' :: joinCommaSpace ((v2 :: vs2).map pyRepr)) ++ rest =
                  ',' :: ' ' :: (joinCommaSpace ((v2 :: vs2).map pyRepr) ++ rest)
                  from rfl]
              rw [parsePyVal_pyRepr v hv _ hnd]
              have hrec := ih (by simp) hvs f (by simpa using hfuel) rest hrest
              show (match parseSepVals f
                      (joinCommaSpace ((v2 :: vs2).map pyRepr) ++ rest) with
                    | some (vs, r3) => some (v :: vs, r3)
                    | none => none) = some (v :: v2 :: vs2, rest)
              rw [hrec]

theorem pyRepr_head (v : PyVal) :
    ∃ c cs, pyRepr v = c :: cs ∧
      (isDigitChar c = true ∨ c = '-' ∨ c = sq ∨ c = dq) := by
  cases v with
  | int n =>
      cases n with
      | ofNat m =>
          obtain ⟨c, cs, hc⟩ := List.exists_cons_of_ne_nil (natDigits_ne_nil m)
          refine ⟨c, cs, hc, Or.inl ?_⟩
          apply natDigits_all_digits m
          rw [hc]
          exact List.mem_cons_self c cs
      | negSucc m => exact ⟨'-', _, rfl, Or.inr (Or.inl rfl)⟩
  | str s =>
      refine ⟨chooseQuote s.data, escapeList (chooseQuote s.data) s.data ++
        [chooseQuote s.data], rfl, ?_⟩
      rw [chooseQuote]
      split
      · exact Or.inr (Or.inr (Or.inr rfl))
      · exact Or.inr (Or.inr (Or.inl rfl))

theorem pyRepr_head_ne (v : PyVal) (a : Char)
    (ha : isDigitChar a = false) (h2 : a ≠ '-') (h3 : a ≠ sq) (h4 : a ≠ dq) :
    ∃ c cs, pyRepr v = c :: cs ∧ c ≠ a := by
  obtain ⟨c, cs, hc, hd⟩ := pyRepr_head v
  refine ⟨c, cs, hc, ?_⟩
  rintro rfl
  rcases hd with hd | rfl | rfl | rfl
  · rw [hd] at ha
    cases ha
  · exact h2 rfl
  · exact h3 rfl
  · exact h4 rfl

theorem parseTuple_tupleRepr (vs : List PyVal) (hv : vs.all pyValAscii = true)
    (rest : List Char) :
    parseTuple (tupleRepr vs ++ rest) = some (vs, rest) := by
  cases vs with
  | nil => rfl
  | cons v1 vs1 =>
      obtain ⟨c, cs, hc, hcne⟩ := pyRepr_head_ne v1 ')'
        (by decide) (by decide) (by decide) (by decide)
      cases vs1 with
      | nil =>
          have hL : tupleRepr [v1] ++ rest =
              '(' :: (c :: (cs ++ ',' :: ')' :: rest)) := by
            rw [show tupleRepr [v1] = '(' :: (pyRepr v1 ++ [',', ')']) from rfl, hc]
            simp
          rw [hL]
          have hsep := parseSepVals_roundtrip [v1] (by simp) hv
            (c :: (cs ++ ',' :: ')' :: rest)).length (by simp)
            (',' :: ')' :: rest) (Or.inr (Or.inr ⟨rest, rfl⟩))
          rw [show joinCommaSpace ([v1].map pyRepr) = pyRepr v1 from rfl, hc,
            List.cons_append] at hsep
          unfold parseTuple
          show (if c = ')' then some ([], cs ++ ',' :: ')' :: rest)
                else
                  match parseSepVals (c :: (cs ++ ',' :: ')' :: rest)).length
                      (c :: (cs ++ ',' :: ')' :: rest)) with
                  | some (vs, r) =>
                      (match r with
                       | ',' :: ')' :: r2 => some (vs, r2)
                       | ')' :: r2 => some (vs, r2)
                       | _ => none)
                  | none => none) = some ([v1], rest)
          rw [if_neg hcne, hsep]
          rfl
      | cons v2 vs2 =>
          have hjoin : joinCommaSpace ((v1 :: v2 :: vs2).map pyRepr) =
              c :: (cs ++ ',' :: ' ' :: joinCommaSpace ((v2 :: vs2).map pyRepr)) := by
            rw [show joinCommaSpace ((v1 :: v2 :: vs2).map pyRepr) =
                pyRepr v1 ++ ',' :: ' ' :: joinCommaSpace ((v2 :: vs2).map pyRepr)
                from rfl, hc, List.cons_append]
          have hL : tupleRepr (v1 :: v2 :: vs2) ++ rest =
              '(' :: (c :: ((cs ++ ',' :: ' ' ::
                joinCommaSpace ((v2 :: vs2).map pyRepr)) ++ ')' :: rest)) := by
            rw [show tupleRepr (v1 :: v2 :: vs2) =
                '(' :: (joinCommaSpace ((v1 :: v2 :: vs2).map pyRepr) ++ [')'])
                from rfl, hjoin]
            simp
          rw [hL]
          have hjlen : (v1 :: v2 :: vs2).length ≤
              (joinCommaSpace ((v1 :: v2 :: vs2).map pyRepr)).length := by
            have hmap : ∀ x ∈ (v1 :: v2 :: vs2).map pyRepr, x ≠ [] := by
              intro x hx
              obtain ⟨v, _, rfl⟩ := List.mem_map.mp hx
              exact pyRepr_ne_nil v
            simpa using joinCommaSpace_length_ge _ hmap
          have hlen : (v1 :: v2 :: vs2).length ≤
              (c :: ((cs ++ ',' :: ' ' ::
                joinCommaSpace ((v2 :: vs2).map pyRepr)) ++ ')' :: rest)).length := by
            rw [hjoin] at hjlen
            simp only [List.length_cons, List.length_append] at hjlen ⊢
            omega
          have hsep := parseSepVals_roundtrip (v1 :: v2 :: vs2) (by simp) hv
            (c :: ((cs ++ ',' :: ' ' ::
              joinCommaSpace ((v2 :: vs2).map pyRepr)) ++ ')' :: rest)).length
            hlen (')' :: rest) (Or.inl ⟨rest, rfl⟩)
          rw [hjoin, List.cons_append] at hsep
          unfold parseTuple
          show (if c = ')' then
                  some ([], (cs ++ ',' :: ' ' ::
                    joinCommaSpace ((v2 :: vs2).map pyRepr)) ++ ')' :: rest)
                else
                  match parseSepVals (c :: ((cs ++ ',' :: ' ' ::
                      joinCommaSpace ((v2 :: vs2).map pyRepr)) ++ ')' :: rest)).length
                      (c :: ((cs ++ ',' :: ' ' ::
                      joinCommaSpace ((v2 :: vs2).map pyRepr)) ++ ')' :: rest)) with
                  | some (vs, r) =>
                      (match r with
                       | ',' :: ')' :: r2 => some (vs, r2)
                       | ')' :: r2 => some (vs, r2)
                       | _ => none)
                  | none => none) = some (v1 :: v2 :: vs2, rest)
          rw [if_neg hcne, hsep]
          rfl

theorem parsePair_pairRepr (p : String × PyVal)
    (hn : ∀ c ∈ p.1.data, c.toNat < 128)
    (hv : pyValAscii p.2 = true) (rest : List Char) :
    parsePair (pairRepr p ++ rest) = some (p, rest) := by
  obtain ⟨name, v⟩ := p
  have hnd : ∀ c, (')' :: rest).head? = some c → isDigitChar c = false := by
    intro c hc
    injection hc with hc
    subst hc
    decide
  have hL : pairRepr (name, v) ++ rest =
      '(' :: (strRepr name.data ++ (',' :: ' ' :: (pyRepr v ++ ')' :: rest))) := by
    rw [pairRepr]
    simp
  rw [hL]
  unfold parsePair
  show (match parseStr (strRepr name.data ++
          (',' :: ' ' :: (pyRepr v ++ ')' :: rest))) with
        | some (nm, r) =>
            (match r with
             | ',' :: ' ' :: r2 =>
                 (match parsePyVal r2 with
                  | some (w, r3) =>
                      (match r3 with
                       | ')' :: r4 => some ((⟨nm⟩, w), r4)
                       | _ => none)
                  | none => none)
             | _ => none)
        | none => none) = some ((name, v), rest)
  rw [parseStr_strRepr name.data hn _]
  show (match parsePyVal (pyRepr v ++ ')' :: rest) with
        | some (w, r3) =>
            (match r3 with
             | ')' :: r4 => some ((⟨name.data⟩, w), r4)
             | _ => none)
        | none => none) = some ((name, v), rest)
  rw [parsePyVal_pyRepr v hv _ hnd]
  rfl

theorem parsePairs_roundtrip :
    ∀ ps : List (String × PyVal), ps ≠ [] →
    ps.all (fun p => p.1.data.all (fun c => c.toNat < 128) && pyValAscii p.2) = true →
    ∀ fuel : Nat, ps.length ≤ fuel →
    ∀ r : List Char,
      parsePairs fuel (joinCommaSpace (ps.map pairRepr) ++ (']' :: r)) =
        some (ps, ']' :: r) := by
  intro ps
  induction ps with
  | nil => intro h; exact absurd rfl h
  | cons p ps ih =>
      intro _ hascii fuel hfuel r
      rw [List.all_cons, Bool.and_eq_true] at hascii
      obtain ⟨hp, hps⟩ := hascii
      rw [Bool.and_eq_true] at hp
      obtain ⟨hp1, hp2⟩ := hp
      have hn : ∀ c ∈ p.1.data, c.toNat < 128 := by
        intro c hc
        simpa using (List.all_eq_true.mp hp1) c hc
      cases fuel with
      | zero => simp at hfuel
      | succ f =>
          cases ps with
          | nil =>
              rw [show joinCommaSpace ([p].map pairRepr) = pairRepr p from rfl]
              unfold parsePairs
              rw [parsePair_pairRepr p hn hp2 (']' :: r)]
              rfl
          | cons p2 ps2 =>
              rw [show joinCommaSpace ((p :: p2 :: ps2).map pairRepr) =
                  pairRepr p ++ ',' :: ' ' ::
                    joinCommaSpace ((p2 :: ps2).map pairRepr) from rfl,
                List.append_assoc]
              unfold parsePairs
              rw [show (',' :: ' ' :: joinCommaSpace ((p2 :: ps2).map pairRepr)) ++
                  (']' :: r) =
                  ',' :: ' ' :: (joinCommaSpace ((p2 :: ps2).map pairRepr) ++
                    (']' :: r)) from rfl]
              rw [parsePair_pairRepr p hn hp2 _]
              have hrec := ih (by simp) hps f (by simpa using hfuel) r
              show (match parsePairs f
                      (joinCommaSpace ((p2 :: ps2).map pairRepr) ++ (']' :: r)) with
                    | some (ps', r3) => some (p :: ps', r3)
                    | none => none) = some (p :: p2 :: ps2, ']' :: r)
              rw [hrec]

theorem pairRepr_ne_nil (p : String × PyVal) : pairRepr p ≠ [] := by
  rw [pairRepr]
  simp

theorem parseItems_itemsRepr (ps : List (String × PyVal))
    (hascii : ps.all
      (fun p => p.1.data.all (fun c => c.toNat < 128) && pyValAscii p.2) = true)
    (rest : List Char) :
    parseItems (itemsRepr ps ++ rest) = some (ps, rest) := by
  cases ps with
  | nil => rfl
  | cons p ps1 =>
      have hhd : ∃ X, joinCommaSpace ((p :: ps1).map pairRepr) = '(' :: X := by
        cases ps1 with
        | nil => exact ⟨_, rfl⟩
        | cons q qs => exact ⟨_, rfl⟩
      obtain ⟨X, hX⟩ := hhd
      have hL : itemsRepr (p :: ps1) ++ rest = '[' :: ('(' :: (X ++ ']' :: rest)) := by
        rw [show itemsRepr (p :: ps1) =
            '[' :: (joinCommaSpace ((p :: ps1).map pairRepr) ++ [']']) from rfl, hX]
        simp
      rw [hL]
      have hjlen : (p :: ps1).length ≤
          (joinCommaSpace ((p :: ps1).map pairRepr)).length := by
        have hmap : ∀ x ∈ (p :: ps1).map pairRepr, x ≠ [] := by
          intro x hx
          obtain ⟨q, _, rfl⟩ := List.mem_map.mp hx
          exact pairRepr_ne_nil q
        simpa using joinCommaSpace_length_ge _ hmap
      have hlen : (p :: ps1).length ≤ ('(' :: (X ++ ']' :: rest)).length := by
        rw [hX] at hjlen
        simp only [List.length_cons, List.length_append] at hjlen ⊢
        omega
      have hpairs := parsePairs_roundtrip (p :: ps1) (by simp) hascii
        ('(' :: (X ++ ']' :: rest)).length hlen rest
      rw [hX, List.cons_append] at hpairs
      unfold parseItems
      show (if ('(' : Char) = ']' then some ([], X ++ ']' :: rest)
            else
              match parsePairs ('(' :: (X ++ ']' :: rest)).length
                  ('(' :: (X ++ ']' :: rest)) with
              | some (ps', r) =>
                  (match r with
                   | ']' :: r2 => some (ps', r2)
                   | _ => none)
              | none => none) = some (p :: ps1, rest)
      rw [if_neg (by decide), hpairs]
      rfl

theorem insertByName_perm (p : String × PyVal) (l : List (String × PyVal)) :
    (insertByName p l).Perm (p :: l) := by
  induction l with
  | nil => exact List.Perm.refl _
  | cons q rest ih =>
      rw [insertByName]
      split
      · exact (ih.cons q).trans (List.Perm.swap p q rest)
      · exact List.Perm.refl _

theorem sortByName_perm (l : List (String × PyVal)) : (sortByName l).Perm l := by
  induction l with
  | nil => exact List.Perm.refl _
  | cons p rest ih =>
      rw [sortByName]
      exact (insertByName_perm p (sortByName rest)).trans (ih.cons p)

theorem parseKey_getCacheKey (args : List PyVal)
    (kwargs : List (String × PyVal)) (h : keysAscii args kwargs = true) :
    parseKey (getCacheKey args kwargs) = some (args, sortByName kwargs) := by
  rw [keysAscii, Bool.and_eq_true] at h
  obtain ⟨hargs, hkw⟩ := h
  have hkw' : (sortByName kwargs).all
      (fun p => p.1.data.all (fun c => c.toNat < 128) && pyValAscii p.2) = true := by
    rw [List.all_eq_true] at hkw ⊢
    intro p hp
    exact hkw p ((sortByName_perm kwargs).mem_iff.mp hp)
  rw [getCacheKey]
  unfold parseKey
  rw [parseTuple_tupleRepr args hargs _]
  show (match parseItems (itemsRepr (sortByName kwargs)) with
        | some (kws, r2) => if r2 = [] then some (args, kws) else none
        | none => none) = some (args, sortByName kwargs)
  rw [show itemsRepr (sortByName kwargs) =
      itemsRepr (sortByName kwargs) ++ [] from (List.append_nil _).symm]
  rw [parseItems_itemsRepr _ hkw' []]
  rfl

theorem insertByName_eq_orderedInsert (p : String × PyVal)
    (l : List (String × PyVal)) :
    insertByName p l = List.orderedInsert nameLe p l := by
  induction l with
  | nil => rfl
  | cons q rest ih =>
      rw [insertByName, List.orderedInsert]
      by_cases h : q.1 < p.1
      · rw [if_pos h, if_neg (show ¬nameLe p q from not_le.mpr h), ih]
      · rw [if_neg h, if_pos (show nameLe p q from not_lt.mp h)]

theorem sortByName_eq_insertionSort (l : List (String × PyVal)) :
    sortByName l = List.insertionSort nameLe l := by
  induction l with
  | nil => rfl
  | cons p rest ih =>
      rw [sortByName, List.insertionSort, ih, insertByName_eq_orderedInsert]

theorem sortByName_sorted_le (l : List (String × PyVal)) :
    List.Pairwise nameLe (sortByName l) := by
  rw [sortByName_eq_insertionSort]
  exact List.sorted_insertionSort nameLe l

theorem sortByName_sorted_lt (l : List (String × PyVal))
    (h : (l.map Prod.fst).Nodup) :
    List.Pairwise (fun a b : String × PyVal => a.1 < b.1) (sortByName l) := by
  have hle := sortByName_sorted_le l
  have hnodup : ((sortByName l).map Prod.fst).Nodup :=
    (((sortByName_perm l).map Prod.fst).nodup_iff).mpr h
  have hne : List.Pairwise (fun a b : String × PyVal => a.1 ≠ b.1) (sortByName l) :=
    List.pairwise_map.mp hnodup
  exact (hle.and hne).imp (fun h => lt_of_le_of_ne h.1 h.2)

theorem sortByName_eq_of_perm (l1 l2 : List (String × PyVal)) (h : l1.Perm l2)
    (hnodup : (l1.map Prod.fst).Nodup) : sortByName l1 = sortByName l2 := by
  have hnodup2 : (l2.map Prod.fst).Nodup := ((h.map Prod.fst).nodup_iff).mp hnodup
  have hperm : (sortByName l1).Perm (sortByName l2) :=
    (sortByName_perm l1).trans (h.trans (sortByName_perm l2).symm)
  exact @List.eq_of_perm_of_sorted _ (fun a b : String × PyVal => a.1 < b.1)
    ⟨fun a b h1 h2 => absurd (h1.trans h2) (lt_irrefl _)⟩ _ _ hperm
    (sortByName_sorted_lt l1 hnodup) (sortByName_sorted_lt l2 hnodup2)

theorem mem_name_unique {l : List (String × PyVal)}
    (h : (l.map Prod.fst).Nodup) {n : String} {v1 v2 : PyVal}
    (h1 : (n, v1) ∈ l) (h2 : (n, v2) ∈ l) : v1 = v2 := by
  induction l with
  | nil => cases h1
  | cons p rest ih =>
      rw [List.map_cons, List.nodup_cons] at h
      rcases List.mem_cons.mp h1 with he1 | h1'
      · rcases List.mem_cons.mp h2 with he2 | h2'
        · cases he1.trans he2.symm
          rfl
        · exfalso
          apply h.1
          rw [← he1]
          exact List.mem_map.mpr ⟨(n, v2), h2', rfl⟩
      · rcases List.mem_cons.mp h2 with he2 | h2'
        · exfalso
          apply h.1
          rw [← he2]
          exact List.mem_map.mpr ⟨(n, v1), h1', rfl⟩
        · exact ih h.2 h1' h2'

/-- C6: the cache key `str(args) + str(sorted(kwargs.items()))` is
order-insensitive in named arguments and injective in values over the
application's value domain (one-byte strings and integers): permuting
kwargs (whose names, as dict keys, are distinct) leaves the key
unchanged; equal keys force equal positional tuples and equal sorted
kwargs; and a differing named or positional argument value forces
different keys. -/
theorem getCacheKey_correct (args : List PyVal) (kw1 : List (String × PyVal))
    (hnodup1 : (kw1.map Prod.fst).Nodup) (ha1 : keysAscii args kw1 = true) :
    (∀ kw2, kw1.Perm kw2 → getCacheKey args kw1 = getCacheKey args kw2) ∧
    (∀ args2 kw2, keysAscii args2 kw2 = true →
        getCacheKey args kw1 = getCacheKey args2 kw2 →
        args = args2 ∧ sortByName kw1 = sortByName kw2) ∧
    (∀ kw2, (kw2.map Prod.fst).Nodup → keysAscii args kw2 = true →
        ∀ n v1 v2, (n, v1) ∈ kw1 → (n, v2) ∈ kw2 → v1 ≠ v2 →
        getCacheKey args kw1 ≠ getCacheKey args kw2) ∧
    (∀ args2 kw2, keysAscii args2 kw2 = true → args ≠ args2 →
        getCacheKey args kw1 ≠ getCacheKey args2 kw2) := by
  have hinj : ∀ args2 kw2, keysAscii args2 kw2 = true →
      getCacheKey args kw1 = getCacheKey args2 kw2 →
      args = args2 ∧ sortByName kw1 = sortByName kw2 := by
    intro args2 kw2 ha2 heq
    have r1 := parseKey_getCacheKey args kw1 ha1
    have r2 := parseKey_getCacheKey args2 kw2 ha2
    rw [heq, r2] at r1
    injection r1 with r1
    rw [Prod.mk.injEq] at r1
    exact ⟨r1.1.symm, r1.2.symm⟩
  refine ⟨?_, hinj, ?_, ?_⟩
  · intro kw2 hperm
    rw [getCacheKey, getCacheKey, sortByName_eq_of_perm kw1 kw2 hperm hnodup1]
  · intro kw2 hnodup2 ha2 n v1 v2 hm1 hm2 hne heq
    obtain ⟨_, hs⟩ := hinj args kw2 ha2 heq
    apply hne
    have hm1' : (n, v1) ∈ sortByName kw1 :=
      (sortByName_perm kw1).mem_iff.mpr hm1
    rw [hs] at hm1'
    have hm1'' : (n, v1) ∈ kw2 := (sortByName_perm kw2).mem_iff.mp hm1'
    exact mem_name_unique hnodup2 hm1'' hm2
  · intro args2 kw2 ha2 hne heq
    exact hne (hinj args2 kw2 ha2 heq).1

/-- Witness for C6: a concrete call — the two kwarg orders produce the
same key, and changing a value changes the key. -/
theorem getCacheKey_correct_witness :
    (([("a", PyVal.int 1), ("b", PyVal.str "x")].map Prod.fst).Nodup ∧
      keysAscii [PyVal.str "f"] [("a", PyVal.int 1), ("b", PyVal.str "x")] = true) ∧
    getCacheKey [PyVal.str "f"] [("a", PyVal.int 1), ("b", PyVal.str "x")] =
      getCacheKey [PyVal.str "f"] [("b", PyVal.str "x"), ("a", PyVal.int 1)] ∧
    getCacheKey [PyVal.str "f"] [("a", PyVal.int 1), ("b", PyVal.str "x")] ≠
      getCacheKey [PyVal.str "f"] [("a", PyVal.int 2), ("b", PyVal.str "x")] :=
  ⟨⟨by decide, by decide⟩,
   (getCacheKey_correct [PyVal.str "f"] [("a", PyVal.int 1), ("b", PyVal.str "x")]
      (by decide) (by decide)).1 _ (by decide),
   (getCacheKey_correct [PyVal.str "f"] [("a", PyVal.int 1), ("b", PyVal.str "x")]
      (by decide) (by decide)).2.2.1 _ (by decide) (by decide) "a"
      (PyVal.int 1) (PyVal.int 2) (by decide) (by decide) (by decide)⟩

end NeoBloggy
